import Mathlib

/-!
Verification of the Excel-to-Knowledge-Graph core against its specification.

The TypeScript source is shallowly embedded: React state updates become pure
state-passing functions, JSON.stringify structural equality becomes Lean
structural equality on the embedded value types, and JavaScript arrays become
Lean lists.  Each embedded definition mirrors one function of the source.
-/

/-! ## HistoryStore: embedding of src/hooks/useHistoryState.ts -/

/-- Capacity of the undo/redo timeline (MAX_HISTORY_SIZE in the source:
10 undo steps plus the current state). -/
def MAX_HISTORY_SIZE : Nat := 11

/-- The state held by useHistoryState: the snapshot list and the cursor.
In the source these are the two useState cells history and currentIndex. -/
structure Hist (V : Type) where
  history : List V
  idx : Nat
deriving DecidableEq, Repr

/-- Initial store: useState initializes history to [initialState], index 0. -/
def Hist.init {V : Type} (v : V) : Hist V := ⟨[v], 0⟩

/-- history[currentIndex], the current snapshot.  The source indexes the
array directly; on every reachable state the index is in bounds. -/
def Hist.current {V : Type} [Inhabited V] (s : Hist V) : V :=
  s.history.getD s.idx default

/-- canUndo: currentIndex > 0. -/
def Hist.canUndo {V : Type} (s : Hist V) : Bool := decide (0 < s.idx)

/-- canRedo: currentIndex < history.length - 1. -/
def Hist.canRedo {V : Type} (s : Hist V) : Bool :=
  decide (s.idx < s.history.length - 1)

/-- setState with a direct value.  JSON.stringify-equality of snapshots is
modelled as structural equality of the embedded values.  slice(0, i+1) is
List.take (i+1); slice(len - MAX) is List.drop (len - MAX). -/
def Hist.set {V : Type} [Inhabited V] [DecidableEq V] (s : Hist V) (v : V) :
    Hist V :=
  if v = s.current then s
  else
    let newHistory := s.history.take (s.idx + 1) ++ [v]
    let sliced :=
      if MAX_HISTORY_SIZE < newHistory.length then
        newHistory.drop (newHistory.length - MAX_HISTORY_SIZE)
      else newHistory
    ⟨sliced, sliced.length - 1⟩

/-- setState with a derivation function applied to the current snapshot. -/
def Hist.setWith {V : Type} [Inhabited V] [DecidableEq V] (s : Hist V)
    (f : V → V) : Hist V :=
  s.set (f s.current)

/-- undo: if canUndo, decrement the cursor; otherwise do nothing. -/
def Hist.undo {V : Type} (s : Hist V) : Hist V :=
  if 0 < s.idx then ⟨s.history, s.idx - 1⟩ else s

/-- redo: if canRedo, increment the cursor; otherwise do nothing. -/
def Hist.redo {V : Type} (s : Hist V) : Hist V :=
  if s.idx < s.history.length - 1 then ⟨s.history, s.idx + 1⟩ else s

/-- resetState: replace the whole timeline with a single snapshot. -/
def Hist.reset {V : Type} (_s : Hist V) (v : V) : Hist V := ⟨[v], 0⟩

/-- One user-visible operation on the store. -/
inductive HistOp (V : Type) where
  | set (v : V)
  | setWith (f : V → V)
  | undo
  | redo
  | reset (v : V)

/-- Apply one operation. -/
def Hist.step {V : Type} [Inhabited V] [DecidableEq V] (s : Hist V) :
    HistOp V → Hist V
  | .set v => s.set v
  | .setWith f => s.setWith f
  | .undo => s.undo
  | .redo => s.redo
  | .reset v => s.reset v

/-- Run a whole sequence of operations from a state. -/
def Hist.run {V : Type} [Inhabited V] [DecidableEq V] (s : Hist V)
    (ops : List (HistOp V)) : Hist V :=
  ops.foldl Hist.step s

/-- The structural invariant of the store. -/
def Hist.Inv {V : Type} (s : Hist V) : Prop :=
  1 ≤ s.history.length ∧ s.history.length ≤ MAX_HISTORY_SIZE ∧
    s.idx < s.history.length

theorem hist_set_inv {V : Type} [Inhabited V] [DecidableEq V]
    (s : Hist V) (v : V) (h : s.Inv) : (s.set v).Inv := by
  rcases h with ⟨h1, h2, h3⟩
  have hL : (s.history.take (s.idx + 1) ++ [v]).length =
      min (s.idx + 1) s.history.length + 1 := by simp
  unfold Hist.set
  split
  · exact ⟨h1, h2, h3⟩
  · simp only [Hist.Inv]
    split <;> rename_i hc <;>
      simp only [List.length_drop, hL] at hc ⊢ <;> omega

theorem hist_step_inv {V : Type} [Inhabited V] [DecidableEq V]
    (s : Hist V) (op : HistOp V) (h : s.Inv) : (s.step op).Inv := by
  rcases h with ⟨h1, h2, h3⟩
  cases op with
  | set v => exact hist_set_inv s v ⟨h1, h2, h3⟩
  | setWith f => exact hist_set_inv s _ ⟨h1, h2, h3⟩
  | undo =>
      simp only [Hist.step, Hist.undo]
      split
      · exact ⟨h1, h2, show s.idx - 1 < s.history.length by omega⟩
      · exact ⟨h1, h2, h3⟩
  | redo =>
      simp only [Hist.step, Hist.redo]
      split
      · rename_i hr
        exact ⟨h1, h2, show s.idx + 1 < s.history.length by omega⟩
      · exact ⟨h1, h2, h3⟩
  | reset v =>
      refine ⟨by simp [Hist.step, Hist.reset], ?_, ?_⟩
      · simp [Hist.step, Hist.reset, MAX_HISTORY_SIZE]
      · simp [Hist.step, Hist.reset]

theorem hist_run_inv {V : Type} [Inhabited V] [DecidableEq V]
    (ops : List (HistOp V)) (s : Hist V) (h : s.Inv) : (s.run ops).Inv := by
  induction ops generalizing s with
  | nil => exact h
  | cons op rest ih => exact ih (s.step op) (hist_step_inv s op h)

/-- The last n entries of a list (drop everything before them). -/
def takeLast {α : Type} (n : Nat) (l : List α) : List α :=
  l.drop (l.length - n)

/-- The list of set operations writing the given values in order. -/
def setsOf {V : Type} (vs : List V) : List (HistOp V) :=
  vs.map HistOp.set

/-- Each value differs from the one before it (the first from the seed). -/
def chainNeB {V : Type} [DecidableEq V] : V → List V → Bool
  | _, [] => true
  | c, v :: vs => (v != c) && chainNeB v vs

theorem getD_append_last {α : Type} (pre : List α) (c d : α) :
    (pre ++ [c]).getD pre.length d = c := by
  induction pre with
  | nil => rfl
  | cons x xs ih => simpa [List.getD] using ih

theorem hist_current_top {V : Type} [Inhabited V] (pre : List V) (c : V) :
    (Hist.current ⟨pre ++ [c], pre.length⟩) = c := by
  simpa [Hist.current] using getD_append_last pre c default

theorem takeLast_drop {α : Type} (l : List α) (m n : Nat)
    (h : m + n ≤ l.length) : takeLast n (l.drop m) = takeLast n l := by
  unfold takeLast
  rw [List.drop_drop, List.length_drop]
  congr 1
  omega

theorem hist_set_shape {V : Type} [Inhabited V] [DecidableEq V]
    (s : Hist V) (v : V) (hv : v ≠ s.current) :
    s.set v =
      ⟨takeLast MAX_HISTORY_SIZE (s.history.take (s.idx + 1) ++ [v]),
       (takeLast MAX_HISTORY_SIZE (s.history.take (s.idx + 1) ++ [v])).length - 1⟩ := by
  unfold Hist.set takeLast
  rw [if_neg hv]
  dsimp only
  split
  · rfl
  · rename_i hc
    have h0 : (s.history.take (s.idx + 1) ++ [v]).length - MAX_HISTORY_SIZE = 0 := by
      omega
    rw [h0, List.drop_zero]

theorem hist_set_top {V : Type} [Inhabited V] [DecidableEq V]
    (pre : List V) (c v : V) (hv : v ≠ c) :
    Hist.set ⟨pre ++ [c], pre.length⟩ v =
      ⟨((pre ++ [c]).drop ((pre.length + 2) - MAX_HISTORY_SIZE)) ++ [v],
       ((pre ++ [c]).drop ((pre.length + 2) - MAX_HISTORY_SIZE)).length⟩ := by
  have hcur : v ≠ Hist.current ⟨pre ++ [c], pre.length⟩ := by
    rw [hist_current_top]; exact hv
  rw [hist_set_shape _ _ hcur]
  have htake : (⟨pre ++ [c], pre.length⟩ : Hist V).history.take
      ((⟨pre ++ [c], pre.length⟩ : Hist V).idx + 1) = pre ++ [c] := by
    simpa using List.take_length (pre ++ [c])
  have hlen2 : (pre ++ [c] ++ [v]).length = pre.length + 2 := by simp
  have hle : (pre ++ [c] ++ [v]).length - MAX_HISTORY_SIZE ≤ (pre ++ [c]).length := by
    simp only [hlen2, List.length_append, List.length_cons, List.length_nil,
      MAX_HISTORY_SIZE]
    omega
  rw [htake]
  unfold takeLast
  rw [List.drop_append_of_le_length hle, Hist.mk.injEq, hlen2]
  constructor
  · rfl
  · simp

theorem hist_run_sets_top {V : Type} [Inhabited V] [DecidableEq V] :
    ∀ (vs pre : List V) (c : V), pre.length ≤ 10 → chainNeB c vs = true →
      Hist.run ⟨pre ++ [c], pre.length⟩ (setsOf vs) =
        ⟨takeLast MAX_HISTORY_SIZE (pre ++ c :: vs),
         (takeLast MAX_HISTORY_SIZE (pre ++ c :: vs)).length - 1⟩ := by
  intro vs
  induction vs with
  | nil =>
      intro pre c hpre _
      have h0 : (pre ++ [c]).length - MAX_HISTORY_SIZE = 0 := by
        simp only [List.length_append, List.length_cons, List.length_nil,
          MAX_HISTORY_SIZE]
        omega
      simp only [Hist.run, setsOf, List.map_nil, List.foldl_nil, takeLast, h0,
        List.drop_zero, Hist.mk.injEq]
      refine ⟨?_, ?_⟩ <;> simp
  | cons v rest ih =>
      intro pre c hpre hchain
      simp only [chainNeB, Bool.and_eq_true, bne_iff_ne] at hchain
      obtain ⟨hvc, hrest⟩ := hchain
      have hstep : Hist.run ⟨pre ++ [c], pre.length⟩ (setsOf (v :: rest)) =
          Hist.run (Hist.set ⟨pre ++ [c], pre.length⟩ v) (setsOf rest) := rfl
      rw [hstep, hist_set_top pre c v hvc]
      have hklen : ((pre ++ [c]).drop ((pre.length + 2) - MAX_HISTORY_SIZE)).length ≤ 10 := by
        simp only [List.length_drop, List.length_append, List.length_cons,
          List.length_nil, MAX_HISTORY_SIZE]
        omega
      rw [ih ((pre ++ [c]).drop ((pre.length + 2) - MAX_HISTORY_SIZE)) v hklen hrest]
      have heq : takeLast MAX_HISTORY_SIZE
            ((pre ++ [c]).drop ((pre.length + 2) - MAX_HISTORY_SIZE) ++ v :: rest) =
          takeLast MAX_HISTORY_SIZE (pre ++ c :: v :: rest) := by
        have hk1 : (pre.length + 2) - MAX_HISTORY_SIZE ≤ (pre ++ [c]).length := by
          simp only [List.length_append, List.length_cons, List.length_nil,
            MAX_HISTORY_SIZE]
          omega
        rw [← List.drop_append_of_le_length hk1]
        by_cases hc : pre.length + 2 ≤ MAX_HISTORY_SIZE
        · have h0 : (pre.length + 2) - MAX_HISTORY_SIZE = 0 := by omega
          rw [h0, List.drop_zero]
          simp
        · rw [takeLast_drop]
          · simp
          · simp only [List.length_append, List.length_cons, List.length_nil,
              MAX_HISTORY_SIZE]
            simp only [MAX_HISTORY_SIZE] at hc
            omega
      rw [heq]

theorem hist_undo_iterate {V : Type} :
    ∀ (n : Nat) (s : Hist V), n ≤ s.idx →
      Hist.undo^[n] s = ⟨s.history, s.idx - n⟩ := by
  intro n
  induction n with
  | zero => intro s _; simp
  | succ m ih =>
      intro s hn
      rw [Function.iterate_succ_apply]
      have hpos : 0 < s.idx := by omega
      have hu : s.undo = ⟨s.history, s.idx - 1⟩ := by
        unfold Hist.undo
        rw [if_pos hpos]
      rw [hu, ih ⟨s.history, s.idx - 1⟩ (show m ≤ s.idx - 1 by omega)]
      rw [Hist.mk.injEq]
      exact ⟨rfl, show s.idx - 1 - m = s.idx - (m + 1) by omega⟩

theorem getD_drop_zero {α : Type} (l : List α) (m : Nat) (d : α) :
    (l.drop m).getD 0 d = l.getD m d := by
  simp [List.getD_eq_getElem?_getD, List.getElem?_drop]

theorem hist_current_set {V : Type} [Inhabited V] [DecidableEq V]
    (s : Hist V) (v : V) (hv : v ≠ s.current) : (s.set v).current = v := by
  rw [hist_set_shape s v hv]
  have hle : (s.history.take (s.idx + 1) ++ [v]).length - MAX_HISTORY_SIZE ≤
      (s.history.take (s.idx + 1)).length := by
    simp only [List.length_append, List.length_cons, List.length_nil,
      MAX_HISTORY_SIZE]
    omega
  unfold takeLast
  rw [List.drop_append_of_le_length hle]
  unfold Hist.current
  simp only []
  have hlen : ((s.history.take (s.idx + 1)).drop
      ((s.history.take (s.idx + 1) ++ [v]).length - MAX_HISTORY_SIZE) ++ [v]).length - 1 =
      ((s.history.take (s.idx + 1)).drop
      ((s.history.take (s.idx + 1) ++ [v]).length - MAX_HISTORY_SIZE)).length := by
    simp
  rw [hlen, getD_append_last]

theorem takeLast_cons_length {V : Type} (v0 : V) (vs : List V)
    (hlen : MAX_HISTORY_SIZE ≤ vs.length) :
    (takeLast MAX_HISTORY_SIZE (v0 :: vs)).length = MAX_HISTORY_SIZE := by
  simp only [takeLast, List.length_drop, List.length_cons, MAX_HISTORY_SIZE] at *
  omega

theorem hist_current_after_undos {V : Type} [Inhabited V] [DecidableEq V]
    (v0 : V) (vs : List V) (hlen : MAX_HISTORY_SIZE ≤ vs.length) :
    (Hist.undo^[10] (⟨takeLast MAX_HISTORY_SIZE (v0 :: vs),
        (takeLast MAX_HISTORY_SIZE (v0 :: vs)).length - 1⟩ : Hist V)).current =
      vs.getD (vs.length - MAX_HISTORY_SIZE) default := by
  have h11 := takeLast_cons_length v0 vs hlen
  rw [hist_undo_iterate 10 _ (show (10 : Nat) ≤ _ by rw [h11]; simp [MAX_HISTORY_SIZE])]
  unfold Hist.current
  show (takeLast MAX_HISTORY_SIZE (v0 :: vs)).getD
      ((takeLast MAX_HISTORY_SIZE (v0 :: vs)).length - 1 - 10) default = _
  rw [h11]
  show (takeLast MAX_HISTORY_SIZE (v0 :: vs)).getD 0 default = _
  unfold takeLast
  rw [getD_drop_zero]
  have hk : (v0 :: vs).length - MAX_HISTORY_SIZE = (vs.length - MAX_HISTORY_SIZE) + 1 := by
    simp only [List.length_cons, MAX_HISTORY_SIZE] at *
    omega
  rw [hk, List.getD_cons_succ]

/-- C2.  Over every operation sequence the timeline length stays between 1 and
11 with the cursor in bounds; a set of a distinct value truncates to the
cursor, appends, and keeps only the newest 11 snapshots; and after at least 11
chained distinct sets, ten undos land on the earliest retained snapshot, which
is no longer the initial value. -/
theorem useHistoryState_invariant_eviction {V : Type} [Inhabited V] [DecidableEq V] :
    (∀ (v0 : V) (ops : List (HistOp V)),
        1 ≤ ((Hist.init v0).run ops).history.length ∧
        ((Hist.init v0).run ops).history.length ≤ MAX_HISTORY_SIZE ∧
        ((Hist.init v0).run ops).idx < ((Hist.init v0).run ops).history.length) ∧
    (∀ (s : Hist V) (v : V), v ≠ s.current →
        s.set v = ⟨takeLast MAX_HISTORY_SIZE (s.history.take (s.idx + 1) ++ [v]),
          (takeLast MAX_HISTORY_SIZE (s.history.take (s.idx + 1) ++ [v])).length - 1⟩) ∧
    (∀ (v0 : V) (vs : List V), chainNeB v0 vs = true → MAX_HISTORY_SIZE ≤ vs.length →
        ((Hist.init v0).run (setsOf vs)).history = takeLast MAX_HISTORY_SIZE (v0 :: vs) ∧
        (Hist.undo^[10] ((Hist.init v0).run (setsOf vs))).current
          = vs.getD (vs.length - MAX_HISTORY_SIZE) default ∧
        (v0 ∉ vs →
          (Hist.undo^[10] ((Hist.init v0).run (setsOf vs))).current ≠ v0)) := by
  refine ⟨?_, ?_, ?_⟩
  · intro v0 ops
    exact hist_run_inv ops (Hist.init v0)
      ⟨by simp [Hist.init], by simp [Hist.init, MAX_HISTORY_SIZE], by simp [Hist.init]⟩
  · intro s v hv
    exact hist_set_shape s v hv
  · intro v0 vs hch hlen
    have hrun : (Hist.init v0).run (setsOf vs) =
        ⟨takeLast MAX_HISTORY_SIZE (v0 :: vs),
         (takeLast MAX_HISTORY_SIZE (v0 :: vs)).length - 1⟩ := by
      have h := hist_run_sets_top vs ([] : List V) v0 (by simp) hch
      simpa [Hist.init] using h
    have hcur : (Hist.undo^[10] ((Hist.init v0).run (setsOf vs))).current =
        vs.getD (vs.length - MAX_HISTORY_SIZE) default := by
      rw [hrun]
      exact hist_current_after_undos v0 vs hlen
    refine ⟨by rw [hrun], hcur, ?_⟩
    intro hnm heq
    rw [hcur] at heq
    have hb : vs.length - MAX_HISTORY_SIZE < vs.length := by
      simp only [MAX_HISTORY_SIZE] at *
      omega
    have hmem : vs.getD (vs.length - MAX_HISTORY_SIZE) default ∈ vs := by
      rw [List.getD_eq_getElem vs default hb]
      exact List.getElem_mem hb
    rw [heq] at hmem
    exact hnm hmem

theorem useHistoryState_invariant_eviction_witness :
    ((⟨[0], 0⟩ : Hist Nat).set 1 = ⟨[0, 1], 1⟩) ∧
    ((Hist.init (0 : Nat)).run (setsOf [1,2,3,4,5,6,7,8,9,10,11])).history =
      [1,2,3,4,5,6,7,8,9,10,11] ∧
    (Hist.undo^[10] ((Hist.init (0 : Nat)).run
      (setsOf [1,2,3,4,5,6,7,8,9,10,11]))).current = 1 ∧
    (Hist.undo^[10] ((Hist.init (0 : Nat)).run
      (setsOf [1,2,3,4,5,6,7,8,9,10,11]))).current ≠ 0 := by
  have h2 := useHistoryState_invariant_eviction.2.1 (⟨[0], 0⟩ : Hist Nat) 1 (by decide)
  have h3 := useHistoryState_invariant_eviction.2.2 (0 : Nat)
    [1,2,3,4,5,6,7,8,9,10,11] (by decide) (by decide)
  refine ⟨by rw [h2]; rfl, by rw [h3.1]; rfl, by rw [h3.2.1]; rfl, h3.2.2 (by decide)⟩

/-- C3.  Setting a value structurally equal to the current snapshot (directly
or through a derivation function) is a no-op, and setting the same value twice
never grows the history. -/
theorem setState_equal_noop {V : Type} [Inhabited V] [DecidableEq V] :
    (∀ (s : Hist V) (v : V), v = s.current → s.set v = s) ∧
    (∀ (s : Hist V) (f : V → V), f s.current = s.current → s.setWith f = s) ∧
    (∀ (s : Hist V) (v : V), (s.set v).set v = s.set v) := by
  have h1 : ∀ (s : Hist V) (v : V), v = s.current → s.set v = s := by
    intro s v hv
    unfold Hist.set
    rw [if_pos hv]
  refine ⟨h1, ?_, ?_⟩
  · intro s f hf
    unfold Hist.setWith
    exact h1 s _ hf
  · intro s v
    by_cases hv : v = s.current
    · rw [h1 s v hv, h1 s v hv]
    · exact h1 _ v (hist_current_set s v hv).symm

theorem setState_equal_noop_witness :
    (⟨[7], 0⟩ : Hist Nat).set 7 = ⟨[7], 0⟩ ∧
    (⟨[7], 0⟩ : Hist Nat).setWith (fun x => x) = ⟨[7], 0⟩ ∧
    ((⟨[7], 0⟩ : Hist Nat).set 9).set 9 = (⟨[7], 0⟩ : Hist Nat).set 9 :=
  ⟨setState_equal_noop.1 ⟨[7], 0⟩ 7 (by decide),
   setState_equal_noop.2.1 ⟨[7], 0⟩ (fun x => x) rfl,
   setState_equal_noop.2.2 ⟨[7], 0⟩ 9⟩

/-- C10.  undo and redo never touch the snapshot list, and on any in-bounds
state undo-then-redo (when canUndo) and redo-then-undo (when canRedo) restore
the state exactly. -/
theorem undo_redo_roundtrip {V : Type} [Inhabited V] [DecidableEq V]
    (s : Hist V) (hs : s.idx < s.history.length) :
    (s.undo).history = s.history ∧ (s.redo).history = s.history ∧
    (s.canUndo = true → (s.undo).redo = s) ∧
    (s.canRedo = true → (s.redo).undo = s) := by
  refine ⟨?_, ?_, ?_, ?_⟩
  · unfold Hist.undo
    split <;> rfl
  · unfold Hist.redo
    split <;> rfl
  · intro hcu
    have hidx : 0 < s.idx := by simpa [Hist.canUndo] using hcu
    unfold Hist.undo
    rw [if_pos hidx]
    unfold Hist.redo
    rw [if_pos (show s.idx - 1 < s.history.length - 1 by omega)]
    rw [Hist.mk.injEq]
    exact ⟨rfl, show s.idx - 1 + 1 = s.idx by omega⟩
  · intro hcr
    have hidx : s.idx < s.history.length - 1 := by simpa [Hist.canRedo] using hcr
    unfold Hist.redo
    rw [if_pos hidx]
    unfold Hist.undo
    rw [if_pos (show 0 < s.idx + 1 by omega)]
    rw [Hist.mk.injEq]
    exact ⟨rfl, show s.idx + 1 - 1 = s.idx by omega⟩

theorem undo_redo_roundtrip_witness :
    ((⟨[3, 4], 1⟩ : Hist Nat).undo).history = [3, 4] ∧
    ((⟨[3, 4], 1⟩ : Hist Nat).undo).redo = ⟨[3, 4], 1⟩ ∧
    ((⟨[3, 4], 0⟩ : Hist Nat).redo).undo = ⟨[3, 4], 0⟩ :=
  ⟨(undo_redo_roundtrip ⟨[3, 4], 1⟩ (by decide)).1,
   (undo_redo_roundtrip ⟨[3, 4], 1⟩ (by decide)).2.2.1 (by decide),
   (undo_redo_roundtrip ⟨[3, 4], 0⟩ (by decide)).2.2.2 (by decide)⟩

/-! ## Data model: embedding of src/types.ts

JavaScript numbers are embedded as integers (no claim under verification
depends on fractional or IEEE behaviour); optional interface fields become
Option, and a JSON null cell value is its own constructor. -/

/-- A cell value: string | number | null. -/
inductive CellValue where
  | str (s : String)
  | num (n : Int)
  | null
deriving DecidableEq, Repr

structure CellData where
  address : String
  value : CellValue
  formula : Option String
deriving DecidableEq, Repr

structure SheetData where
  name : String
  data : List (List CellData)
deriving DecidableEq, Repr

inductive NodeType where
  | Spreadsheet | Sheet | Table | Cell | Formula | Analysis | Tag | Row | Column
deriving DecidableEq, Repr

structure Node where
  id : String
  type : NodeType
  label : String
  description : Option String
  tags : Option (List String)
  formula : Option String
  value : Option CellValue
  address : Option String
deriving DecidableEq, Repr

structure Link where
  id : String
  source : String
  target : String
  label : String
deriving DecidableEq, Repr

structure KnowledgeGraph where
  nodes : List Node
  links : List Link
deriving DecidableEq, Repr

/-! ## ContentCache: embedding of src/services/cacheService.ts (read path)

localStorage is a flat string-keyed store.  JSON.parse of a persisted string
either throws (embedded as the unparsable tag) or yields a value whose
metadata / graph / sheets members may each be missing or null (embedded as
Option; the source tests them for truthiness, and the present values are
objects or arrays, which are always truthy). -/

structure CacheMetadata where
  key : String
  generatedAt : String
deriving DecidableEq, Repr

structure CachedAnalysisP where
  metadata : Option CacheMetadata
  graph : Option KnowledgeGraph
  sheets : Option (List SheetData)
deriving DecidableEq, Repr

/-- A persisted localStorage value as seen through JSON.parse. -/
inductive StoredItem where
  | unparsable
  | parsed (p : CachedAnalysisP)
deriving DecidableEq, Repr

/-- localStorage: an association list keyed by the cache key. -/
def Storage : Type := List (String × StoredItem)

/-- localStorage.getItem. -/
def getItem (st : Storage) (k : String) : Option StoredItem :=
  (List.find? (fun p => p.1 == k) st).map (fun p => p.2)

/-- localStorage.removeItem. -/
def removeItem (st : Storage) (k : String) : Storage :=
  List.filter (fun p => !(p.1 == k)) st

/-- getCachedAnalysis: returns the parsed entry when it has all three members;
returns null otherwise; removes the entry only when JSON.parse throws (the
catch block).  The second component is the storage after the call. -/
def getCachedAnalysis (st : Storage) (k : String) :
    Option CachedAnalysisP × Storage :=
  match getItem st k with
  | none => (none, st)
  | some .unparsable => (none, removeItem st k)
  | some (.parsed p) =>
      if p.metadata.isSome && p.graph.isSome && p.sheets.isSome then
        (some p, st)
      else
        (none, st)

/-- C6 counterexample: a parsable entry missing all required members is
reported absent but is NOT purged from storage, contradicting the claim that
every malformed or partially-written entry is deleted. -/
theorem getCachedAnalysis_incomplete_not_purged :
    (getCachedAnalysis [("k", StoredItem.parsed ⟨none, none, none⟩)] "k").1 = none ∧
    (getCachedAnalysis [("k", StoredItem.parsed ⟨none, none, none⟩)] "k").2 =
      [("k", StoredItem.parsed ⟨none, none, none⟩)] := by
  constructor <;> rfl

/-- C6 amended: a missing key or a structurally incomplete entry yields
absent with storage untouched; only an unparsable entry is purged (and also
yields absent).  No error escapes: the function is total. -/
theorem getCachedAnalysis_corrupt_handling (st : Storage) (k : String) :
    (getItem st k = none → getCachedAnalysis st k = (none, st)) ∧
    (getItem st k = some StoredItem.unparsable →
        getCachedAnalysis st k = (none, removeItem st k)) ∧
    (∀ p, getItem st k = some (StoredItem.parsed p) →
        (p.metadata.isSome && p.graph.isSome && p.sheets.isSome) = false →
        getCachedAnalysis st k = (none, st)) := by
  refine ⟨?_, ?_, ?_⟩
  · intro h
    unfold getCachedAnalysis
    rw [h]
  · intro h
    unfold getCachedAnalysis
    rw [h]
  · intro p h hmiss
    unfold getCachedAnalysis
    rw [h]
    simp [hmiss]

theorem getCachedAnalysis_corrupt_handling_witness :
    getCachedAnalysis ([] : Storage) "k" = (none, ([] : Storage)) ∧
    getCachedAnalysis [("k", StoredItem.unparsable)] "k" = (none, []) ∧
    getCachedAnalysis [("k", StoredItem.parsed ⟨some ⟨"k", "t"⟩, none, none⟩)] "k" =
      (none, [("k", StoredItem.parsed ⟨some ⟨"k", "t"⟩, none, none⟩)]) := by
  refine ⟨(getCachedAnalysis_corrupt_handling [] "k").1 rfl, ?_, ?_⟩
  · have h := (getCachedAnalysis_corrupt_handling [("k", StoredItem.unparsable)] "k").2.1 rfl
    rw [h]
    rfl
  · have h := (getCachedAnalysis_corrupt_handling
      [("k", StoredItem.parsed ⟨some ⟨"k", "t"⟩, none, none⟩)] "k").2.2
      ⟨some ⟨"k", "t"⟩, none, none⟩ rfl rfl
    rw [h]

/-! ## GraphMutator: embedding of handleSaveTags
(src/components/InteractiveGridView.tsx)

The deep copy via JSON round-trip is the identity on the embedded pure
values.  The found-or-pushed owner object is tracked by its index so that the
final tags assignment mutates exactly the object the source mutates.  The
fallback argument embeds tagEditor.node, the popover node used when the owner
is not yet in the graph (at the call site its id always equals the saved
nodeId). -/

/-- Tag id derivation: backtick tag_ prefix plus the label lowercased with
every whitespace character replaced by an underscore (the source regex
replace of \s by underscore; no trimming, no collapsing). -/
def normalizeLabel (label : String) : String :=
  String.mk ((label.data.map Char.toLower).map
    (fun c => if c.isWhitespace then '_' else c))

def tagIdOf (label : String) : String :=
  "tag_" ++ normalizeLabel label

def linkIdOf (nodeId tagId : String) : String :=
  "link_" ++ nodeId ++ "_" ++ tagId

/-- Index of the first node with the given id (Array.prototype.find by id). -/
def findNodeIdx : List Node → String → Option Nat
  | [], _ => none
  | n :: ns, i => if n.id = i then some 0 else (findNodeIdx ns i).map (· + 1)

/-- The owner lookup: the node list (with the fallback pushed when absent)
and the index of the owner object inside it. -/
def findOwnerIdx (g : KnowledgeGraph) (nodeId : String) (fallback : Node) :
    List Node × Nat :=
  match findNodeIdx g.nodes nodeId with
  | some i => (g.nodes, i)
  | none => (g.nodes ++ [{ fallback with tags := some [] }], g.nodes.length)

/-- The owner object as the source sees it after find-or-push. -/
def ownerNodeOf (g : KnowledgeGraph) (nodeId : String) (fallback : Node) : Node :=
  (findOwnerIdx g nodeId fallback).1.getD (findOwnerIdx g nodeId fallback).2
    { fallback with tags := some [] }

/-- node.tags || [] on the owner object. -/
def ownerCurrentTags (g : KnowledgeGraph) (nodeId : String) (fallback : Node) :
    List String :=
  (ownerNodeOf g nodeId fallback).tags.getD []

/-- The HAS_TAG link pushed for one added label. -/
def newTagLink (nodeId tagLabel : String) : Link :=
  { id := linkIdOf nodeId (tagIdOf tagLabel), source := nodeId,
    target := tagIdOf tagLabel, label := "HAS_TAG" }

/-- One iteration of the tagsToAdd loop: find-or-create the tag node, then
push the HAS_TAG link. -/
def addTagStep (nodeId : String) (acc : List Node × List Link)
    (tagLabel : String) : List Node × List Link :=
  let tagId := tagIdOf tagLabel
  let nodes :=
    if acc.1.any (fun n => n.id == tagId) then acc.1
    else acc.1 ++ [{ id := tagId, type := .Tag, label := tagLabel,
                     description := none, tags := none, formula := none,
                     value := none, address := none }]
  (nodes, acc.2 ++ [newTagLink nodeId tagLabel])

def applyAdds (nodeId : String) (st : List Node × List Link)
    (labels : List String) : List Node × List Link :=
  labels.foldl (addTagStep nodeId) st

/-- One iteration of the tagsToRemove loop: drop every link from the owner to
the derived tag id (the source filter tests only source and target). -/
def applyRemoves (nodeId : String) (links : List Link)
    (labels : List String) : List Link :=
  labels.foldl
    (fun ls tagLabel =>
      ls.filter (fun l => !(l.source == nodeId && l.target == tagIdOf tagLabel)))
    links

/-- The body of handleSaveTags once the owner object (index k in node list A)
is fixed: diff the new label list against the denormalized node.tags, add
links (and missing tag nodes) for the additions, filter links for the
removals, then overwrite node.tags with the new list. -/
def saveTagsCore (nodeId : String) (newTags : List String)
    (A : List Node) (k : Nat) (links : List Link) (dflt : Node) :
    KnowledgeGraph :=
  let node := A.getD k dflt
  let currentTags := node.tags.getD []
  let tagsToAdd := newTags.filter (fun t => !(currentTags.contains t))
  let tagsToRemove := currentTags.filter (fun t => !(newTags.contains t))
  let st := applyAdds nodeId (A, links) tagsToAdd
  let links2 := applyRemoves nodeId st.2 tagsToRemove
  ⟨st.1.set k { node with tags := some newTags }, links2⟩

/-- handleSaveTags: find-or-push the owner, then reconcile. -/
def handleSaveTags (g : KnowledgeGraph) (nodeId : String)
    (newTags : List String) (fallback : Node) : KnowledgeGraph :=
  saveTagsCore nodeId newTags (findOwnerIdx g nodeId fallback).1
    (findOwnerIdx g nodeId fallback).2 g.links { fallback with tags := some [] }

/-- The labels the source adds: newTags not contained in node.tags. -/
def addedLabels (g : KnowledgeGraph) (nodeId : String)
    (newTags : List String) (fallback : Node) : List String :=
  newTags.filter (fun t => !((ownerCurrentTags g nodeId fallback).contains t))

/-- The labels the source removes: node.tags entries not in newTags. -/
def removedLabels (g : KnowledgeGraph) (nodeId : String)
    (newTags : List String) (fallback : Node) : List String :=
  (ownerCurrentTags g nodeId fallback).filter (fun t => !(newTags.contains t))

/-- There is a HAS_TAG link from source s to target t. -/
def HasTagLink (g : KnowledgeGraph) (s t : String) : Prop :=
  ∃ l ∈ g.links, l.source = s ∧ l.target = t ∧ l.label = "HAS_TAG"

instance (g : KnowledgeGraph) (s t : String) : Decidable (HasTagLink g s t) := by
  unfold HasTagLink
  infer_instance

theorem getD_set_self {α : Type} (l : List α) (k : Nat) (x d : α)
    (h : k < l.length) : (l.set k x).getD k d = x := by
  induction l generalizing k with
  | nil => simp at h
  | cons a as ih =>
      cases k with
      | zero => rfl
      | succ m => exact ih m (by simpa using h)

theorem getD_set_ne {α : Type} (l : List α) (k j : Nat) (x d : α)
    (hne : k ≠ j) : (l.set k x).getD j d = l.getD j d := by
  induction l generalizing k j with
  | nil => simp [List.set]
  | cons a as ih =>
      cases k with
      | zero =>
          cases j with
          | zero => exact absurd rfl hne
          | succ m => rfl
      | succ m =>
          cases j with
          | zero => rfl
          | succ m2 => exact ih m m2 (by omega)

theorem set_getD_self {α : Type} (l : List α) (k : Nat) (d : α) :
    l.set k (l.getD k d) = l := by
  induction l generalizing k with
  | nil => rfl
  | cons a as ih =>
      cases k with
      | zero => rfl
      | succ m => simpa [List.set] using ih m

theorem findNodeIdx_none_forall {l : List Node} {i : String}
    (h : findNodeIdx l i = none) : ∀ n ∈ l, n.id ≠ i := by
  induction l with
  | nil => intro n hn; simp at hn
  | cons a as ih =>
      intro n hn
      unfold findNodeIdx at h
      by_cases ha : a.id = i
      · rw [if_pos ha] at h
        exact absurd h (by simp)
      · rw [if_neg ha] at h
        rcases List.mem_cons.mp hn with rfl | hmem
        · exact ha
        · exact ih (by simpa using h) n hmem

theorem findNodeIdx_some_spec {l : List Node} {i : String} {k : Nat}
    (h : findNodeIdx l i = some k) :
    k < l.length ∧ (∀ d, (l.getD k d).id = i) ∧
      (∀ j, j < k → ∀ d, (l.getD j d).id ≠ i) := by
  induction l generalizing k with
  | nil => exact absurd h (by simp [findNodeIdx])
  | cons a as ih =>
      unfold findNodeIdx at h
      by_cases ha : a.id = i
      · rw [if_pos ha] at h
        obtain rfl : (0 : Nat) = k := by simpa using h
        exact ⟨by simp, fun d => ha, by omega⟩
      · rw [if_neg ha] at h
        obtain ⟨k0, hk0, rfl⟩ := Option.map_eq_some'.mp h
        obtain ⟨h1, h2, h3⟩ := ih hk0
        refine ⟨by simpa using h1, fun d => h2 d, ?_⟩
        intro j hj d
        cases j with
        | zero => exact ha
        | succ j0 => exact h3 j0 (by omega) d

theorem findNodeIdx_set {l : List Node} {k : Nat} {x : Node} {i : String}
    (hk : k < l.length)
    (hmin : ∀ j, j < k → ∀ d, (l.getD j d).id ≠ i)
    (hx : x.id = i) : findNodeIdx (l.set k x) i = some k := by
  induction l generalizing k with
  | nil => simp at hk
  | cons a as ih =>
      cases k with
      | zero =>
          show findNodeIdx (x :: as) i = some 0
          unfold findNodeIdx
          rw [if_pos hx]
      | succ m =>
          show findNodeIdx (a :: as.set m x) i = some (m + 1)
          unfold findNodeIdx
          have ha : a.id ≠ i := hmin 0 (by omega) a
          rw [if_neg ha]
          rw [ih (by simpa using hk) (fun j hj d => hmin (j + 1) (by omega) d)]
          rfl

theorem applyAdds_links (nodeId : String) :
    ∀ (labels : List String) (A : List Node) (L : List Link),
      (applyAdds nodeId (A, L) labels).2 = L ++ labels.map (newTagLink nodeId) := by
  intro labels
  induction labels with
  | nil => intro A L; simp [applyAdds]
  | cons t ts ih =>
      intro A L
      show (applyAdds nodeId (addTagStep nodeId (A, L) t) ts).2 = _
      unfold addTagStep
      dsimp only
      split <;> rw [ih] <;> simp

theorem applyAdds_nodes_exists (nodeId : String) :
    ∀ (labels : List String) (A : List Node) (L : List Link),
      ∃ T, (applyAdds nodeId (A, L) labels).1 = A ++ T := by
  intro labels
  induction labels with
  | nil => intro A L; exact ⟨[], by simp [applyAdds]⟩
  | cons t ts ih =>
      intro A L
      show ∃ T, (applyAdds nodeId (addTagStep nodeId (A, L) t) ts).1 = A ++ T
      unfold addTagStep
      dsimp only
      split
      · exact ih A (L ++ [newTagLink nodeId t])
      · obtain ⟨T, hT⟩ := ih
          (A ++ [{ id := tagIdOf t, type := .Tag, label := t, description := none,
                   tags := none, formula := none, value := none, address := none }])
          (L ++ [newTagLink nodeId t])
        refine ⟨{ id := tagIdOf t, type := .Tag, label := t, description := none,
                  tags := none, formula := none, value := none,
                  address := none } :: T, ?_⟩
        rw [hT, List.append_assoc]
        rfl

theorem mem_applyRemoves (nodeId : String) :
    ∀ (labels : List String) (L : List Link) (l : Link),
      l ∈ applyRemoves nodeId L labels ↔
        l ∈ L ∧ ∀ t ∈ labels, ¬(l.source = nodeId ∧ l.target = tagIdOf t) := by
  intro labels
  induction labels with
  | nil => intro L l; simp [applyRemoves]
  | cons t ts ih =>
      intro L l
      show l ∈ applyRemoves nodeId
          (L.filter (fun l => !(l.source == nodeId && l.target == tagIdOf t))) ts ↔ _
      rw [ih]
      rw [List.mem_filter]
      have hb : (!(l.source == nodeId && l.target == tagIdOf t)) = true ↔
          ¬(l.source = nodeId ∧ l.target = tagIdOf t) := by
        constructor
        · intro h hc
          rcases hc with ⟨hs, ht⟩
          rw [hs, ht] at h
          simp at h
        · intro h
          by_cases hs : l.source = nodeId
          · by_cases ht : l.target = tagIdOf t
            · exact absurd ⟨hs, ht⟩ h
            · simp [ht]
          · simp [hs]
      rw [hb, List.forall_mem_cons]
      tauto

theorem saveTagsCore_links (nodeId : String) (newTags : List String)
    (A : List Node) (k : Nat) (links : List Link) (dflt : Node) :
    (saveTagsCore nodeId newTags A k links dflt).links =
      applyRemoves nodeId
        (links ++ (newTags.filter
          (fun t => !(((A.getD k dflt).tags.getD []).contains t))).map
            (newTagLink nodeId))
        (((A.getD k dflt).tags.getD []).filter
          (fun t => !(newTags.contains t))) := by
  unfold saveTagsCore
  dsimp only
  rw [applyAdds_links]

theorem saveTagsCore_nodes_exists (nodeId : String) (newTags : List String)
    (A : List Node) (k : Nat) (links : List Link) (dflt : Node) :
    ∃ T, (saveTagsCore nodeId newTags A k links dflt).nodes =
      (A ++ T).set k { A.getD k dflt with tags := some newTags } := by
  unfold saveTagsCore
  dsimp only
  obtain ⟨T, hT⟩ := applyAdds_nodes_exists nodeId
    (newTags.filter (fun t => !(((A.getD k dflt).tags.getD []).contains t))) A links
  exact ⟨T, by rw [hT]⟩

theorem findOwnerIdx_eq_some (g : KnowledgeGraph) (nodeId : String)
    (fallback : Node) (i : Nat) (h : findNodeIdx g.nodes nodeId = some i) :
    findOwnerIdx g nodeId fallback = (g.nodes, i) := by
  unfold findOwnerIdx
  rw [h]

theorem findOwnerIdx_eq_none (g : KnowledgeGraph) (nodeId : String)
    (fallback : Node) (h : findNodeIdx g.nodes nodeId = none) :
    findOwnerIdx g nodeId fallback =
      (g.nodes ++ [{ fallback with tags := some [] }], g.nodes.length) := by
  unfold findOwnerIdx
  rw [h]

theorem findOwnerIdx_lt (g : KnowledgeGraph) (nodeId : String) (fallback : Node) :
    (findOwnerIdx g nodeId fallback).2 < (findOwnerIdx g nodeId fallback).1.length := by
  unfold findOwnerIdx
  split
  · rename_i i h
    exact (findNodeIdx_some_spec h).1
  · simp

theorem findOwnerIdx_min (g : KnowledgeGraph) (nodeId : String) (fallback : Node) :
    ∀ j, j < (findOwnerIdx g nodeId fallback).2 →
      ∀ d, (((findOwnerIdx g nodeId fallback).1).getD j d).id ≠ nodeId := by
  unfold findOwnerIdx
  split
  · rename_i i h
    exact fun j hj d => (findNodeIdx_some_spec h).2.2 j hj d
  · rename_i h
    intro j hj d
    have hjl : j < g.nodes.length := by simpa using hj
    rw [List.getD_append _ _ _ _ hjl]
    have hmem : g.nodes.getD j d ∈ g.nodes := by
      rw [List.getD_eq_getElem _ _ hjl]
      exact List.getElem_mem hjl
    exact findNodeIdx_none_forall h _ hmem

theorem ownerNode_id (g : KnowledgeGraph) (nodeId : String) (fallback : Node)
    (hfb : fallback.id = nodeId) : (ownerNodeOf g nodeId fallback).id = nodeId := by
  unfold ownerNodeOf
  cases h : findNodeIdx g.nodes nodeId with
  | some i =>
      rw [findOwnerIdx_eq_some g nodeId fallback i h]
      exact (findNodeIdx_some_spec h).2.1 _
  | none =>
      rw [findOwnerIdx_eq_none g nodeId fallback h]
      dsimp only
      rw [getD_append_last]
      exact hfb

theorem saveTagsCore_noop (nodeId : String) (newTags : List String)
    (N : List Node) (k : Nat) (L : List Link) (dflt : Node)
    (htags : (N.getD k dflt).tags = some newTags) :
    saveTagsCore nodeId newTags N k L dflt = ⟨N, L⟩ := by
  unfold saveTagsCore
  dsimp only
  have hct : (N.getD k dflt).tags.getD [] = newTags := by rw [htags]; rfl
  rw [hct]
  have hadd : newTags.filter (fun t => !(newTags.contains t)) = [] := by
    rw [List.filter_eq_nil_iff]
    intro a ha
    simp [ha]
  rw [hadd]
  show (⟨(N.set k { N.getD k dflt with tags := some newTags }), L⟩ : KnowledgeGraph) =
    ⟨N, L⟩
  rw [KnowledgeGraph.mk.injEq]
  constructor
  · have hrec : { N.getD k dflt with tags := some newTags } = N.getD k dflt := by
      rw [← htags]
    rw [hrec, set_getD_self]
  · rfl

/-- C8.  handleSaveTags is idempotent: a second save of the same label list
finds the owner with tags already equal to newTags, diffs to nothing, and
rewrites the same tags value in place. -/
theorem setTags_idempotent (g : KnowledgeGraph) (nodeId : String)
    (newTags : List String) (fallback : Node) (hfb : fallback.id = nodeId) :
    handleSaveTags (handleSaveTags g nodeId newTags fallback) nodeId newTags fallback
      = handleSaveTags g nodeId newTags fallback := by
  obtain ⟨T, hT⟩ := saveTagsCore_nodes_exists nodeId newTags
    (findOwnerIdx g nodeId fallback).1 (findOwnerIdx g nodeId fallback).2
    g.links { fallback with tags := some [] }
  have hr1nodes : (handleSaveTags g nodeId newTags fallback).nodes =
      ((findOwnerIdx g nodeId fallback).1 ++ T).set (findOwnerIdx g nodeId fallback).2
        { ownerNodeOf g nodeId fallback with tags := some newTags } := hT
  have hlt := findOwnerIdx_lt g nodeId fallback
  have hklen : (findOwnerIdx g nodeId fallback).2 <
      ((findOwnerIdx g nodeId fallback).1 ++ T).length := by
    simp only [List.length_append]
    omega
  have hfind : findNodeIdx (handleSaveTags g nodeId newTags fallback).nodes nodeId
      = some (findOwnerIdx g nodeId fallback).2 := by
    rw [hr1nodes]
    apply findNodeIdx_set hklen
    · intro j hj d
      have hjA : j < (findOwnerIdx g nodeId fallback).1.length := by omega
      rw [List.getD_append _ _ _ _ hjA]
      exact findOwnerIdx_min g nodeId fallback j hj d
    · exact ownerNode_id g nodeId fallback hfb
  have htags : ((handleSaveTags g nodeId newTags fallback).nodes.getD
      (findOwnerIdx g nodeId fallback).2 { fallback with tags := some [] }).tags
        = some newTags := by
    rw [hr1nodes, getD_set_self _ _ _ _ hklen]
  show saveTagsCore nodeId newTags
      (findOwnerIdx (handleSaveTags g nodeId newTags fallback) nodeId fallback).1
      (findOwnerIdx (handleSaveTags g nodeId newTags fallback) nodeId fallback).2
      (handleSaveTags g nodeId newTags fallback).links
      { fallback with tags := some [] }
    = handleSaveTags g nodeId newTags fallback
  rw [findOwnerIdx_eq_some _ nodeId fallback _ hfind]
  exact saveTagsCore_noop nodeId newTags _ _ _ _ htags

theorem setTags_idempotent_witness :
    handleSaveTags
      (handleSaveTags ⟨[], []⟩ "n1" ["a"] ⟨"n1", .Cell, "c", none, none, none, none, none⟩)
      "n1" ["a"] ⟨"n1", .Cell, "c", none, none, none, none, none⟩
    = handleSaveTags ⟨[], []⟩ "n1" ["a"] ⟨"n1", .Cell, "c", none, none, none, none, none⟩ :=
  setTags_idempotent ⟨[], []⟩ "n1" ["a"] ⟨"n1", .Cell, "c", none, none, none, none, none⟩ rfl

theorem handleSaveTags_links (g : KnowledgeGraph) (nodeId : String)
    (newTags : List String) (fallback : Node) :
    (handleSaveTags g nodeId newTags fallback).links =
      applyRemoves nodeId
        (g.links ++ (addedLabels g nodeId newTags fallback).map (newTagLink nodeId))
        (removedLabels g nodeId newTags fallback) :=
  saveTagsCore_links nodeId newTags (findOwnerIdx g nodeId fallback).1
    (findOwnerIdx g nodeId fallback).2 g.links { fallback with tags := some [] }

theorem mem_set_self {α : Type} (l : List α) (k : Nat) (x : α)
    (h : k < l.length) : x ∈ l.set k x := by
  have hlen : k < (l.set k x).length := by
    rw [List.length_set]
    exact h
  have h2 := List.getElem_mem hlen
  have h3 : (l.set k x)[k] = x := List.getElem_set_self hlen
  rw [h3] at h2
  exact h2

theorem mem_set_ne {α : Type} (l : List α) (k j : Nat) (x : α)
    (hj : j < l.length) (hne : k ≠ j) : l[j] ∈ l.set k x := by
  have hlen : j < (l.set k x).length := by
    rw [List.length_set]
    exact hj
  have h2 := List.getElem_mem hlen
  have h3 : (l.set k x)[j] = l[j] := List.getElem_set_ne hne hlen
  rw [h3] at h2
  exact h2

/-- C9 counterexample: the removal loop filters on source and target only, so
a link from the owner to the removed tag id carrying a label other than
HAS_TAG is deleted too. -/
theorem setTags_remove_deletes_other_labels :
    (⟨"L1", "n1", "tag_x", "REFERENCES"⟩ : Link) ∈
      (⟨[⟨"n1", .Cell, "c", none, some ["x"], none, none, none⟩],
        [⟨"L1", "n1", "tag_x", "REFERENCES"⟩]⟩ : KnowledgeGraph).links ∧
    (⟨"L1", "n1", "tag_x", "REFERENCES"⟩ : Link).label ≠ "HAS_TAG" ∧
    (⟨"L1", "n1", "tag_x", "REFERENCES"⟩ : Link) ∉
      (handleSaveTags
        ⟨[⟨"n1", .Cell, "c", none, some ["x"], none, none, none⟩],
         [⟨"L1", "n1", "tag_x", "REFERENCES"⟩]⟩
        "n1" [] ⟨"n1", .Cell, "c", none, some ["x"], none, none, none⟩).links := by
  refine ⟨by decide, by decide, by decide⟩

/-- C9 amended.  For each removed label the operation deletes every link whose
source is the owner and whose target is that label's derived tag id,
regardless of the link's own label; links not matching that source/target
pair survive, and nodes are never deleted (the owner keeps id, type, label;
every other node, Tag nodes included, is untouched). -/
theorem setTags_remove_scope (g : KnowledgeGraph) (nodeId : String)
    (newTags : List String) (fallback : Node) :
    (∀ l ∈ g.links,
        (l.source = nodeId →
          ∀ t ∈ removedLabels g nodeId newTags fallback, l.target ≠ tagIdOf t) →
        l ∈ (handleSaveTags g nodeId newTags fallback).links) ∧
    (∀ l : Link, l.source = nodeId →
        (∃ t ∈ removedLabels g nodeId newTags fallback, l.target = tagIdOf t) →
        l ∉ (handleSaveTags g nodeId newTags fallback).links) ∧
    (∀ n ∈ g.nodes, ∃ n2 ∈ (handleSaveTags g nodeId newTags fallback).nodes,
        n2.id = n.id ∧ n2.type = n.type ∧ n2.label = n.label) := by
  refine ⟨?_, ?_, ?_⟩
  · intro l hl hcond
    rw [handleSaveTags_links, mem_applyRemoves]
    refine ⟨List.mem_append_left _ hl, ?_⟩
    rintro t ht ⟨hs, htg⟩
    exact hcond hs t ht htg
  · rintro l hs ⟨t, ht, htg⟩ hmem
    rw [handleSaveTags_links, mem_applyRemoves] at hmem
    exact hmem.2 t ht ⟨hs, htg⟩
  · intro n hn
    obtain ⟨T, hT⟩ := saveTagsCore_nodes_exists nodeId newTags
      (findOwnerIdx g nodeId fallback).1 (findOwnerIdx g nodeId fallback).2
      g.links { fallback with tags := some [] }
    have hnodes : (handleSaveTags g nodeId newTags fallback).nodes =
        ((findOwnerIdx g nodeId fallback).1 ++ T).set
          (findOwnerIdx g nodeId fallback).2
          { ownerNodeOf g nodeId fallback with tags := some newTags } := hT
    have hlt := findOwnerIdx_lt g nodeId fallback
    have hklen : (findOwnerIdx g nodeId fallback).2 <
        ((findOwnerIdx g nodeId fallback).1 ++ T).length := by
      simp only [List.length_append]
      omega
    have hnA : n ∈ (findOwnerIdx g nodeId fallback).1 := by
      unfold findOwnerIdx
      split
      · exact hn
      · exact List.mem_append_left _ hn
    obtain ⟨j, hj, hjn⟩ := List.mem_iff_getElem.mp (List.mem_append_left T hnA)
    by_cases hjk : j = (findOwnerIdx g nodeId fallback).2
    · subst hjk
      have hown : ownerNodeOf g nodeId fallback = n := by
        show (findOwnerIdx g nodeId fallback).1.getD
          (findOwnerIdx g nodeId fallback).2 { fallback with tags := some [] } = n
        rw [List.getD_eq_getElem _ _ hlt]
        have hcast : ((findOwnerIdx g nodeId fallback).1 ++ T)[
            (findOwnerIdx g nodeId fallback).2] =
            (findOwnerIdx g nodeId fallback).1[
            (findOwnerIdx g nodeId fallback).2] :=
          List.getElem_append_left hlt
        rw [← hcast]
        exact hjn
      refine ⟨{ ownerNodeOf g nodeId fallback with tags := some newTags },
        ?_, by rw [hown], by rw [hown], by rw [hown]⟩
      rw [hnodes]
      exact mem_set_self _ _ _ hklen
    · refine ⟨n, ?_, rfl, rfl, rfl⟩
      rw [hnodes, ← hjn]
      exact mem_set_ne _ _ _ _ hj (fun he => hjk he.symm)

theorem setTags_remove_scope_witness :
    ((⟨"L2", "other", "z", "REL"⟩ : Link) ∈
      (handleSaveTags
        ⟨[⟨"n1", .Cell, "c", none, some ["x"], none, none, none⟩],
         [⟨"Lk", "n1", "tag_x", "HAS_TAG"⟩, ⟨"L2", "other", "z", "REL"⟩]⟩
        "n1" [] ⟨"n1", .Cell, "c", none, some ["x"], none, none, none⟩).links) ∧
    ((⟨"Lk", "n1", "tag_x", "HAS_TAG"⟩ : Link) ∉
      (handleSaveTags
        ⟨[⟨"n1", .Cell, "c", none, some ["x"], none, none, none⟩],
         [⟨"Lk", "n1", "tag_x", "HAS_TAG"⟩, ⟨"L2", "other", "z", "REL"⟩]⟩
        "n1" [] ⟨"n1", .Cell, "c", none, some ["x"], none, none, none⟩).links) ∧
    (∃ n2 ∈ (handleSaveTags
        ⟨[⟨"n1", .Cell, "c", none, some ["x"], none, none, none⟩],
         [⟨"Lk", "n1", "tag_x", "HAS_TAG"⟩, ⟨"L2", "other", "z", "REL"⟩]⟩
        "n1" [] ⟨"n1", .Cell, "c", none, some ["x"], none, none, none⟩).nodes,
      n2.id = "n1" ∧ n2.type = NodeType.Cell ∧ n2.label = "c") := by
  have h := setTags_remove_scope
    ⟨[⟨"n1", .Cell, "c", none, some ["x"], none, none, none⟩],
     [⟨"Lk", "n1", "tag_x", "HAS_TAG"⟩, ⟨"L2", "other", "z", "REL"⟩]⟩
    "n1" [] ⟨"n1", .Cell, "c", none, some ["x"], none, none, none⟩
  refine ⟨h.1 ⟨"L2", "other", "z", "REL"⟩ (by decide) (by decide),
    h.2.1 ⟨"Lk", "n1", "tag_x", "HAS_TAG"⟩ rfl ⟨"x", by decide, by decide⟩, ?_⟩
  obtain ⟨n2, hn2, hid, hty, hlb⟩ := h.2.2
    ⟨"n1", .Cell, "c", none, some ["x"], none, none, none⟩ (by decide)
  exact ⟨n2, hn2, hid, hty, hlb⟩

/-- C1 counterexample: when the denormalized node.tags already lists a label
but no HAS_TAG link exists, saving that same label diffs to nothing, so the
resulting graph still has no HAS_TAG link for it — the link-derived tag set
does not equal newTagLabels. -/
theorem setTags_links_stale_tags_counterexample :
    ¬ HasTagLink
      (handleSaveTags
        ⟨[⟨"n1", .Cell, "c", none, some ["x"], none, none, none⟩], []⟩
        "n1" ["x"] ⟨"n1", .Cell, "c", none, some ["x"], none, none, none⟩)
      "n1" (tagIdOf "x") ∧
    "x" ∈ (["x"] : List String) := by
  refine ⟨by decide, by decide⟩

/-- C1 amended.  If the input graph is coherent — every HAS_TAG link out of
the owner targets the derived id of some label in the owner's node.tags, and
every label in node.tags has such a link — and the id derivation does not
collide between the old and new label lists, then after SetTags the set of
HAS_TAG link targets from the owner is exactly the derived ids of
newTagLabels. -/
theorem setTags_links_reconcile (g : KnowledgeGraph) (nodeId : String)
    (newTags : List String) (fallback : Node)
    (hcoh1 : ∀ l ∈ g.links, l.source = nodeId → l.label = "HAS_TAG" →
        ∃ t ∈ ownerCurrentTags g nodeId fallback, l.target = tagIdOf t)
    (hcoh2 : ∀ t ∈ ownerCurrentTags g nodeId fallback,
        HasTagLink g nodeId (tagIdOf t))
    (hinj : ∀ t1 ∈ ownerCurrentTags g nodeId fallback, ∀ t2 ∈ newTags,
        tagIdOf t1 = tagIdOf t2 → t1 = t2) :
    ∀ tgt, HasTagLink (handleSaveTags g nodeId newTags fallback) nodeId tgt ↔
      ∃ t ∈ newTags, tgt = tagIdOf t := by
  intro tgt
  constructor
  · rintro ⟨l, hlmem, hs, ht, hlab⟩
    rw [handleSaveTags_links, mem_applyRemoves] at hlmem
    obtain ⟨hmem0, hsurv⟩ := hlmem
    rcases List.mem_append.mp hmem0 with hg | hadd
    · obtain ⟨t0, ht0, htg0⟩ := hcoh1 l hg hs hlab
      by_cases hnew : t0 ∈ newTags
      · exact ⟨t0, hnew, by rw [← ht, htg0]⟩
      · exfalso
        have ht0r : t0 ∈ removedLabels g nodeId newTags fallback := by
          unfold removedLabels
          rw [List.mem_filter]
          exact ⟨ht0, by simp [hnew]⟩
        exact hsurv t0 ht0r ⟨hs, htg0⟩
    · obtain ⟨t0, ht0, hlnk⟩ := List.mem_map.mp hadd
      have ht0new : t0 ∈ newTags := by
        unfold addedLabels at ht0
        exact (List.mem_filter.mp ht0).1
      refine ⟨t0, ht0new, ?_⟩
      rw [← ht, ← hlnk]
      rfl
  · rintro ⟨t, htnew, rfl⟩
    by_cases hcur : t ∈ ownerCurrentTags g nodeId fallback
    · obtain ⟨l0, hl0, hs0, ht0, hlab0⟩ := hcoh2 t hcur
      refine ⟨l0, ?_, hs0, ht0, hlab0⟩
      rw [handleSaveTags_links, mem_applyRemoves]
      refine ⟨List.mem_append_left _ hl0, ?_⟩
      rintro tr htr ⟨hs', ht'⟩
      unfold removedLabels at htr
      obtain ⟨htrc, htrn⟩ := List.mem_filter.mp htr
      have hids : tagIdOf tr = tagIdOf t := by
        rw [← ht', ht0]
      have htreq : tr = t := hinj tr htrc t htnew hids
      rw [htreq] at htrn
      simp [htnew] at htrn
    · refine ⟨newTagLink nodeId t, ?_, rfl, rfl, rfl⟩
      rw [handleSaveTags_links, mem_applyRemoves]
      constructor
      · apply List.mem_append_right
        apply List.mem_map.mpr
        refine ⟨t, ?_, rfl⟩
        unfold addedLabels
        rw [List.mem_filter]
        exact ⟨htnew, by simp [hcur]⟩
      · rintro tr htr ⟨hs', ht'⟩
        unfold removedLabels at htr
        obtain ⟨htrc, htrn⟩ := List.mem_filter.mp htr
        have hids : tagIdOf tr = tagIdOf t := by
          rw [← ht']
          rfl
        have htreq : tr = t := hinj tr htrc t htnew hids
        rw [htreq] at htrc
        exact hcur htrc

theorem setTags_links_reconcile_witness :
    HasTagLink
      (handleSaveTags
        ⟨[⟨"n1", .Cell, "c", none, some ["a"], none, none, none⟩,
          ⟨"tag_a", .Tag, "a", none, none, none, none, none⟩],
         [⟨"link_n1_tag_a", "n1", "tag_a", "HAS_TAG"⟩]⟩
        "n1" ["a", "b"] ⟨"n1", .Cell, "c", none, some ["a"], none, none, none⟩)
      "n1" (tagIdOf "b") ∧
    ¬ HasTagLink
      (handleSaveTags
        ⟨[⟨"n1", .Cell, "c", none, some ["a"], none, none, none⟩,
          ⟨"tag_a", .Tag, "a", none, none, none, none, none⟩],
         [⟨"link_n1_tag_a", "n1", "tag_a", "HAS_TAG"⟩]⟩
        "n1" ["a", "b"] ⟨"n1", .Cell, "c", none, some ["a"], none, none, none⟩)
      "n1" "tag_zzz" := by
  have h := setTags_links_reconcile
    ⟨[⟨"n1", .Cell, "c", none, some ["a"], none, none, none⟩,
      ⟨"tag_a", .Tag, "a", none, none, none, none, none⟩],
     [⟨"link_n1_tag_a", "n1", "tag_a", "HAS_TAG"⟩]⟩
    "n1" ["a", "b"] ⟨"n1", .Cell, "c", none, some ["a"], none, none, none⟩
    (by decide) (by decide) (by decide)
  constructor
  · exact (h (tagIdOf "b")).mpr ⟨"b", by decide, rfl⟩
  · intro hc
    obtain ⟨t, htm, hteq⟩ := (h "tag_zzz").mp hc
    have hab : t = "a" ∨ t = "b" := by simpa using htm
    rcases hab with rfl | rfl
    · exact absurd hteq (by decide)
    · exact absurd hteq (by decide)

/-- C7 counterexample: the derivation replaces each whitespace character by
an underscore without trimming or collapsing, so a trailing space changes
the derived id. -/
theorem tagId_trailing_space_differs :
    tagIdOf "Revenue" ≠ tagIdOf "revenue " := by decide

/-- C7 amended.  Labels that agree after lowercasing with each whitespace
character replaced by an underscore derive the same tag id, and saving both
labels find-or-creates a single shared Tag node (the second add finds the
node the first created, so at most one node is appended). -/
theorem tagId_normalized_shared_node (l1 l2 : String)
    (h : normalizeLabel l1 = normalizeLabel l2) :
    tagIdOf l1 = tagIdOf l2 ∧
    ∀ (nodeId : String) (A : List Node) (L : List Link),
      ((applyAdds nodeId (A, L) [l1, l2]).1).length ≤ A.length + 1 := by
  have hid : tagIdOf l1 = tagIdOf l2 := by
    unfold tagIdOf
    rw [h]
  refine ⟨hid, ?_⟩
  intro nodeId A L
  show ((addTagStep nodeId (addTagStep nodeId (A, L) l1) l2).1).length ≤ A.length + 1
  unfold addTagStep
  dsimp only
  by_cases h1 : (A.any (fun n => n.id == tagIdOf l1)) = true
  · rw [if_pos h1, if_pos (by rw [← hid]; exact h1)]
    omega
  · rw [if_neg h1]
    have h2 : ((A ++ [Node.mk (tagIdOf l1) NodeType.Tag l1
        none none none none none]).any (fun n => n.id == tagIdOf l2)) = true := by
      rw [List.any_append]
      have hr : ([Node.mk (tagIdOf l1) NodeType.Tag l1
          none none none none none].any (fun n => n.id == tagIdOf l2)) = true := by
        simp [← hid]
      rw [hr, Bool.or_true]
    rw [if_pos h2]
    simp

theorem tagId_normalized_shared_node_witness :
    tagIdOf "Revenue" = tagIdOf "REVENUE" ∧
    ((applyAdds "n1" (([] : List Node), ([] : List Link))
      ["Revenue", "REVENUE"]).1).length ≤ 1 := by
  have h := tagId_normalized_shared_node "Revenue" "REVENUE" (by decide)
  exact ⟨h.1, h.2 "n1" [] []⟩

/-! ## Decimal rendering of numbers

String(n) in JavaScript renders an integral number in decimal.  The helpers
below build that rendering with structural (fuel) recursion so that concrete
sheets evaluate inside the kernel, and come with a parse-back round trip that
yields injectivity. -/

def digitChar : Nat → Char
  | 0 => '0'
  | 1 => '1'
  | 2 => '2'
  | 3 => '3'
  | 4 => '4'
  | 5 => '5'
  | 6 => '6'
  | 7 => '7'
  | 8 => '8'
  | 9 => '9'
  | _ => '0'

def charDigit : Char → Nat
  | '0' => 0
  | '1' => 1
  | '2' => 2
  | '3' => 3
  | '4' => 4
  | '5' => 5
  | '6' => 6
  | '7' => 7
  | '8' => 8
  | '9' => 9
  | _ => 0

def natCharsAux : Nat → Nat → List Char
  | 0, _ => []
  | fuel + 1, n =>
      if n = 0 then []
      else natCharsAux fuel (n / 10) ++ [digitChar (n % 10)]

/-- Decimal digits of a natural number, most significant first. -/
def natChars (n : Nat) : List Char :=
  if n = 0 then ['0'] else natCharsAux n n

/-- Decimal rendering of an integer (the minus sign for negatives). -/
def intChars (i : Int) : List Char :=
  if i < 0 then '-' :: natChars i.natAbs else natChars i.toNat

def ofDigitChars (l : List Char) : Nat :=
  l.foldl (fun acc c => acc * 10 + charDigit c) 0

theorem charDigit_digitChar (d : Nat) (h : d < 10) : charDigit (digitChar d) = d := by
  interval_cases d <;> rfl

theorem ofDigitChars_append_digit (l : List Char) (c : Char) :
    ofDigitChars (l ++ [c]) = ofDigitChars l * 10 + charDigit c := by
  unfold ofDigitChars
  rw [List.foldl_append]
  rfl

theorem natCharsAux_val : ∀ (fuel n : Nat), n ≤ fuel →
    ofDigitChars (natCharsAux fuel n) = n := by
  intro fuel
  induction fuel with
  | zero =>
      intro n hn
      have : n = 0 := by omega
      subst this
      rfl
  | succ f ih =>
      intro n hn
      unfold natCharsAux
      by_cases h0 : n = 0
      · rw [if_pos h0]
        subst h0
        rfl
      · rw [if_neg h0]
        have hdiv : n / 10 ≤ f := by
          have h1 : n / 10 < n := Nat.div_lt_self (by omega) (by omega)
          omega
        rw [ofDigitChars_append_digit, ih (n / 10) hdiv,
          charDigit_digitChar (n % 10) (Nat.mod_lt n (by omega))]
        omega

theorem natChars_inj (a b : Nat) (h : natChars a = natChars b) : a = b := by
  unfold natChars at h
  by_cases ha : a = 0 <;> by_cases hb : b = 0
  · omega
  · rw [if_pos ha, if_neg hb] at h
    have hval : ofDigitChars ['0'] = ofDigitChars (natCharsAux b b) := by rw [h]
    rw [natCharsAux_val b b (le_refl b)] at hval
    have : ofDigitChars ['0'] = 0 := rfl
    omega
  · rw [if_neg ha, if_pos hb] at h
    have hval : ofDigitChars (natCharsAux a a) = ofDigitChars ['0'] := by rw [h]
    rw [natCharsAux_val a a (le_refl a)] at hval
    have : ofDigitChars ['0'] = 0 := rfl
    omega
  · rw [if_neg ha, if_neg hb] at h
    have hval : ofDigitChars (natCharsAux a a) = ofDigitChars (natCharsAux b b) := by
      rw [h]
    rw [natCharsAux_val a a (le_refl a), natCharsAux_val b b (le_refl b)] at hval
    exact hval

theorem natCharsAux_digits : ∀ (fuel n : Nat), ∀ c ∈ natCharsAux fuel n,
    ∃ d, d < 10 ∧ c = digitChar d := by
  intro fuel
  induction fuel with
  | zero => intro n c hc; simp [natCharsAux] at hc
  | succ f ih =>
      intro n c hc
      unfold natCharsAux at hc
      by_cases h0 : n = 0
      · rw [if_pos h0] at hc
        simp at hc
      · rw [if_neg h0] at hc
        rcases List.mem_append.mp hc with h | h
        · exact ih (n / 10) c h
        · have : c = digitChar (n % 10) := by simpa using h
          exact ⟨n % 10, Nat.mod_lt n (by omega), this⟩

theorem natChars_digits (n : Nat) : ∀ c ∈ natChars n, ∃ d, d < 10 ∧ c = digitChar d := by
  unfold natChars
  by_cases h0 : n = 0
  · rw [if_pos h0]
    intro c hc
    have : c = '0' := by simpa using hc
    exact ⟨0, by omega, this⟩
  · rw [if_neg h0]
    exact natCharsAux_digits n n

theorem natChars_ne_nil (n : Nat) : natChars n ≠ [] := by
  unfold natChars
  by_cases h0 : n = 0
  · rw [if_pos h0]
    simp
  · rw [if_neg h0]
    intro hc
    have := natCharsAux_val n n (le_refl n)
    rw [hc] at this
    have hz : ofDigitChars [] = 0 := rfl
    omega

theorem intChars_inj (a b : Int) (h : intChars a = intChars b) : a = b := by
  have hdash : ∀ m : Nat, '-' ∉ natChars m := by
    intro m hm
    obtain ⟨d, hd, hcd⟩ := natChars_digits m '-' hm
    interval_cases d <;> exact absurd hcd (by decide)
  unfold intChars at h
  by_cases ha : a < 0 <;> by_cases hb : b < 0
  · rw [if_pos ha, if_pos hb] at h
    have h2 : natChars a.natAbs = natChars b.natAbs := by
      simpa using h
    have := natChars_inj _ _ h2
    omega
  · rw [if_pos ha, if_neg hb] at h
    exfalso
    have hh : '-' ∈ natChars b.toNat := by
      rw [← h]
      simp
    exact hdash _ hh
  · rw [if_neg ha, if_pos hb] at h
    exfalso
    have hh : '-' ∈ natChars a.toNat := by
      rw [h]
      simp
    exact hdash _ hh
  · rw [if_neg ha, if_neg hb] at h
    have := natChars_inj _ _ h
    omega

/-! ## TableTransform: embedding of sortData (services/pythonService.ts)

Array.prototype.sort is stable; with the comparator of the source it is
modelled as a left-fold insertion sort that inserts each later row after all
earlier comparator-ties, which realizes the stable order for every consistent
comparison the source makes. -/

/-- A present (non-null) cell value: string or number. -/
inductive SVal where
  | s (v : String)
  | n (v : Int)
deriving DecidableEq, Repr

inductive Dir where
  | asc
  | desc
deriving DecidableEq, Repr

/-- row[columnIndex]?.value with null and out-of-range both absent. -/
def sortKey (col : Nat) (row : List CellData) : Option SVal :=
  match row.get? col with
  | none => none
  | some c =>
      match c.value with
      | .null => none
      | .str s => some (.s s)
      | .num n => some (.n n)

/-- String(value) for a present value. -/
def svalToString : SVal → String
  | .s v => v
  | .n v => String.mk (intChars v)

/-- The ordinal string comparison of the source's final two branches. -/
def strCmp (sa sb : String) : Int :=
  if sa < sb then -1 else if sb < sa then 1 else 0

/-- The value comparison before the direction factor: numeric difference for
two numbers, ordinal comparison of the String() renderings otherwise. -/
def cmpVal (a b : SVal) : Int :=
  match a, b with
  | .n x, .n y => x - y
  | _, _ => strCmp (svalToString a) (svalToString b)

def dirFactor : Dir → Int
  | .asc => 1
  | .desc => -1

/-- The comparator passed to sort: absent values return the factor itself. -/
def cmpRow (col : Nat) (dir : Dir) (a b : List CellData) : Int :=
  match sortKey col a, sortKey col b with
  | none, _ => 1 * dirFactor dir
  | some _, none => -1 * dirFactor dir
  | some x, some y => dirFactor dir * cmpVal x y

def insertRow {α : Type} (cmp : α → α → Int) (x : α) : List α → List α
  | [] => [x]
  | y :: ys => if cmp x y < 0 then x :: y :: ys else y :: insertRow cmp x ys

def sortRows {α : Type} (cmp : α → α → Int) (rows : List α) : List α :=
  rows.foldl (fun acc x => insertRow cmp x acc) []

/-- sortData: detach the header row, sort the data rows, reattach. -/
def sortData (sheet : SheetData) (columnIndex : Nat) (dir : Dir) : SheetData :=
  match sheet.data with
  | [] => sheet
  | header :: rows => ⟨sheet.name, header :: sortRows (cmpRow columnIndex dir) rows⟩

/-- C4 counterexample: in a descending sort the direction factor multiplies
the absent-value sentinel too, so the row with the absent cell sorts FIRST,
not last. -/
theorem sortData_desc_absent_first :
    (sortData ⟨"s", [[⟨"A1", .str "h", none⟩], [⟨"A2", .num 1, none⟩],
        [⟨"A3", .null, none⟩]]⟩ 0 .desc).data =
      [[⟨"A1", .str "h", none⟩], [⟨"A3", .null, none⟩], [⟨"A2", .num 1, none⟩]] ∧
    sortKey 0 [⟨"A3", (.null : CellValue), none⟩] = none ∧
    sortKey 0 [⟨"A2", (.num 1 : CellValue), none⟩] ≠ none := by
  refine ⟨by decide, rfl, by decide⟩

theorem mem_insertRow {α : Type} (cmp : α → α → Int) (x : α) :
    ∀ (l : List α) (z : α), z ∈ insertRow cmp x l ↔ z = x ∨ z ∈ l := by
  intro l
  induction l with
  | nil => intro z; simp [insertRow]
  | cons y ys ih =>
      intro z
      unfold insertRow
      split
      · simp [List.mem_cons]
      · simp [List.mem_cons, ih]
        tauto

theorem insertRow_perm {α : Type} (cmp : α → α → Int) (x : α) :
    ∀ l : List α, List.Perm (insertRow cmp x l) (x :: l) := by
  intro l
  induction l with
  | nil => exact List.Perm.refl _
  | cons y ys ih =>
      unfold insertRow
      split
      · exact List.Perm.refl _
      · exact (List.Perm.cons y ih).trans (List.Perm.swap x y ys)

theorem sortRows_foldl_perm {α : Type} (cmp : α → α → Int) :
    ∀ (l acc : List α),
      List.Perm (List.foldl (fun acc x => insertRow cmp x acc) acc l) (acc ++ l) := by
  intro l
  induction l with
  | nil => intro acc; simp
  | cons x xs ih =>
      intro acc
      show List.Perm (List.foldl _ (insertRow cmp x acc) xs) _
      refine (ih (insertRow cmp x acc)).trans ?_
      refine (List.Perm.append_right xs (insertRow_perm cmp x acc)).trans ?_
      show List.Perm (x :: (acc ++ xs)) (acc ++ x :: xs)
      exact List.perm_middle.symm

theorem sortRows_perm {α : Type} (cmp : α → α → Int) (l : List α) :
    List.Perm (sortRows cmp l) l := by
  have := sortRows_foldl_perm cmp l []
  simpa [sortRows] using this

theorem pairwise_insertRow {α : Type} (P : α → Prop) (R : α → α → Prop)
    (cmp : α → α → Int)
    (hPR1 : ∀ x y, P x → P y → ¬ cmp x y < 0 → R y x)
    (hPR2 : ∀ x y, P x → P y → cmp x y < 0 → R x y)
    (hPRt : ∀ x y z, P x → P y → P z → cmp x y < 0 → R y z → R x z)
    (x : α) (hx : P x) :
    ∀ l : List α, (∀ a ∈ l, P a) → List.Pairwise R l →
      List.Pairwise R (insertRow cmp x l) := by
  intro l
  induction l with
  | nil => intro _ _; simp [insertRow]
  | cons y ys ih =>
      intro hP hp
      have hPy : P y := hP y (by simp)
      have hPys : ∀ a ∈ ys, P a := fun a ha => hP a (by simp [ha])
      rw [List.pairwise_cons] at hp
      obtain ⟨hy, hys⟩ := hp
      unfold insertRow
      split
      · rename_i hlt
        rw [List.pairwise_cons]
        refine ⟨?_, ?_⟩
        · intro z hz
          rcases List.mem_cons.mp hz with rfl | hz2
          · exact hPR2 x z hx hPy hlt
          · exact hPRt x y z hx hPy (hPys z hz2) hlt (hy z hz2)
        · rw [List.pairwise_cons]
          exact ⟨hy, hys⟩
      · rename_i hnlt
        rw [List.pairwise_cons]
        refine ⟨?_, ih hPys hys⟩
        intro z hz
        rcases (mem_insertRow cmp x ys z).mp hz with rfl | hz2
        · exact hPR1 z y hx hPy hnlt
        · exact hy z hz2

theorem sortRows_pairwise_aux {α : Type} (P : α → Prop) (R : α → α → Prop)
    (cmp : α → α → Int)
    (hPR1 : ∀ x y, P x → P y → ¬ cmp x y < 0 → R y x)
    (hPR2 : ∀ x y, P x → P y → cmp x y < 0 → R x y)
    (hPRt : ∀ x y z, P x → P y → P z → cmp x y < 0 → R y z → R x z) :
    ∀ (l acc : List α), (∀ a ∈ l, P a) → (∀ a ∈ acc, P a) →
      List.Pairwise R acc →
      List.Pairwise R (List.foldl (fun acc x => insertRow cmp x acc) acc l) := by
  intro l
  induction l with
  | nil => intro acc _ _ hpacc; exact hpacc
  | cons x xs ih =>
      intro acc hP hacc hpacc
      have hx : P x := hP x (by simp)
      have hxs : ∀ a ∈ xs, P a := fun a ha => hP a (by simp [ha])
      have hacc2 : ∀ a ∈ insertRow cmp x acc, P a := by
        intro a ha
        rcases (mem_insertRow cmp x acc a).mp ha with rfl | h2
        · exact hx
        · exact hacc a h2
      exact ih (insertRow cmp x acc) hxs hacc2
        (pairwise_insertRow P R cmp hPR1 hPR2 hPRt x hx acc hacc hpacc)

theorem sortRows_pairwise {α : Type} (P : α → Prop) (R : α → α → Prop)
    (cmp : α → α → Int)
    (hPR1 : ∀ x y, P x → P y → ¬ cmp x y < 0 → R y x)
    (hPR2 : ∀ x y, P x → P y → cmp x y < 0 → R x y)
    (hPRt : ∀ x y z, P x → P y → P z → cmp x y < 0 → R y z → R x z)
    (l : List α) (hP : ∀ a ∈ l, P a) :
    List.Pairwise R (sortRows cmp l) :=
  sortRows_pairwise_aux P R cmp hPR1 hPR2 hPRt l [] hP
    (fun a ha => absurd ha (List.not_mem_nil a)) List.Pairwise.nil

theorem insertRow_front {α : Type} (cmp : α → α → Int) (x : α) (l : List α)
    (h : ∀ y ∈ l, cmp x y < 0) : insertRow cmp x l = x :: l := by
  cases l with
  | nil => rfl
  | cons y ys =>
      unfold insertRow
      rw [if_pos (h y (by simp))]

theorem sortRows_rev_aux {α : Type} (cmp : α → α → Int) :
    ∀ (l acc : List α), (∀ a ∈ l, ∀ b ∈ acc, cmp a b < 0) →
      List.Pairwise (fun a b => cmp b a < 0) l →
      List.foldl (fun acc x => insertRow cmp x acc) acc l = l.reverse ++ acc := by
  intro l
  induction l with
  | nil => intro acc _ _; simp
  | cons x xs ih =>
      intro acc hca hp
      rw [List.pairwise_cons] at hp
      obtain ⟨hx, hxs⟩ := hp
      show List.foldl _ (insertRow cmp x acc) xs = _
      rw [insertRow_front cmp x acc (fun b hb => hca x (by simp) b hb)]
      have hca2 : ∀ a ∈ xs, ∀ b ∈ x :: acc, cmp a b < 0 := by
        intro a ha b hb
        rcases List.mem_cons.mp hb with rfl | hb2
        · exact hx a ha
        · exact hca a (by simp [ha]) b hb2
      rw [ih (x :: acc) hca2 hxs]
      simp

theorem sortRows_rev {α : Type} (cmp : α → α → Int) (l : List α)
    (hp : List.Pairwise (fun a b => cmp b a < 0) l) :
    sortRows cmp l = l.reverse := by
  have := sortRows_rev_aux cmp l [] (by simp) hp
  simpa [sortRows] using this

theorem strCmp_antisymm (sa sb : String) : strCmp sb sa = - strCmp sa sb := by
  unfold strCmp
  rcases lt_trichotomy sa sb with h | h | h
  · rw [if_neg (lt_asymm h), if_pos h, if_pos h]
    norm_num
  · subst h
    simp [lt_irrefl]
  · rw [if_pos h, if_neg (lt_asymm h), if_pos h]

theorem cmpVal_antisymm (a b : SVal) : cmpVal b a = - cmpVal a b := by
  cases a with
  | n x =>
      cases b with
      | n y =>
          show (y - x : Int) = -(x - y)
          omega
      | s w =>
          exact strCmp_antisymm (svalToString (.n x)) (svalToString (.s w))
  | s v =>
      cases b with
      | n y =>
          exact strCmp_antisymm (svalToString (.s v)) (svalToString (.n y))
      | s w =>
          exact strCmp_antisymm (svalToString (.s v)) (svalToString (.s w))

theorem strCmp_le_zero (sa sb : String) : strCmp sa sb ≤ 0 ↔ sa ≤ sb := by
  unfold strCmp
  rcases lt_trichotomy sa sb with h | h | h
  · rw [if_pos h]
    simp [le_of_lt h]
  · subst h
    simp [lt_irrefl]
  · rw [if_neg (lt_asymm h), if_pos h]
    simp [not_le.mpr h]

theorem strCmp_eq_zero (sa sb : String) (h : strCmp sa sb = 0) : sa = sb := by
  unfold strCmp at h
  rcases lt_trichotomy sa sb with h1 | h1 | h1
  · rw [if_pos h1] at h
    omega
  · exact h1
  · rw [if_neg (lt_asymm h1), if_pos h1] at h
    omega

def isNumB : SVal → Bool
  | .n _ => true
  | .s _ => false

def isStrB : SVal → Bool
  | .s _ => true
  | .n _ => false

theorem sortRows_absent_last (col : Nat) (rows : List (List CellData)) :
    List.Pairwise (fun a b => sortKey col a = none → sortKey col b = none)
      (sortRows (cmpRow col Dir.asc) rows) := by
  refine sortRows_pairwise (fun _ => True) _ _ ?_ ?_ ?_ rows (fun a _ => trivial)
  · intro x y _ _ hn hyn
    cases hx : sortKey col x with
    | none => rfl
    | some v =>
        exfalso
        apply hn
        have hc : cmpRow col Dir.asc x y = -1 * dirFactor Dir.asc := by
          unfold cmpRow
          rw [hx, hyn]
        rw [hc]
        decide
  · intro x y _ _ hlt hxn
    exfalso
    have hc : cmpRow col Dir.asc x y = 1 * dirFactor Dir.asc := by
      unfold cmpRow
      rw [hxn]
    rw [hc] at hlt
    simp [dirFactor] at hlt
  · intro x y z _ _ _ hlt hR hxn
    exfalso
    have hc : cmpRow col Dir.asc x y = 1 * dirFactor Dir.asc := by
      unfold cmpRow
      rw [hxn]
    rw [hc] at hlt
    simp [dirFactor] at hlt

theorem sortRows_absent_first (col : Nat) (rows : List (List CellData)) :
    List.Pairwise (fun a b => sortKey col b = none → sortKey col a = none)
      (sortRows (cmpRow col Dir.desc) rows) := by
  refine sortRows_pairwise (fun _ => True) _ _ ?_ ?_ ?_ rows (fun a _ => trivial)
  · intro x y _ _ hn hxn
    cases hy : sortKey col y with
    | none => rfl
    | some v =>
        exfalso
        apply hn
        have hc : cmpRow col Dir.desc x y = 1 * dirFactor Dir.desc := by
          unfold cmpRow
          rw [hxn]
        rw [hc]
        decide
  · intro x y _ _ hlt hyn
    cases hx : sortKey col x with
    | none => rfl
    | some v =>
        exfalso
        have hc : cmpRow col Dir.desc x y = -1 * dirFactor Dir.desc := by
          unfold cmpRow
          rw [hx, hyn]
        rw [hc] at hlt
        simp [dirFactor] at hlt
  · intro x y z _ _ _ hlt hR hzn
    cases hx : sortKey col x with
    | none => rfl
    | some v =>
        exfalso
        have hyn : sortKey col y = none := hR hzn
        have hc : cmpRow col Dir.desc x y = -1 * dirFactor Dir.desc := by
          unfold cmpRow
          rw [hx, hyn]
        rw [hc] at hlt
        simp [dirFactor] at hlt

theorem cmpVal_trans_num (va vb vc : SVal) (ha : isNumB va = true)
    (hb : isNumB vb = true) (hc : isNumB vc = true)
    (h1 : cmpVal va vb ≤ 0) (h2 : cmpVal vb vc ≤ 0) : cmpVal va vc ≤ 0 := by
  cases va with
  | s v => simp [isNumB] at ha
  | n x =>
      cases vb with
      | s v => simp [isNumB] at hb
      | n y =>
          cases vc with
          | s v => simp [isNumB] at hc
          | n z =>
              show (x - z : Int) ≤ 0
              have e1 : (x - y : Int) ≤ 0 := h1
              have e2 : (y - z : Int) ≤ 0 := h2
              omega

theorem cmpVal_trans_str (va vb vc : SVal) (ha : isStrB va = true)
    (hb : isStrB vb = true) (hc : isStrB vc = true)
    (h1 : cmpVal va vb ≤ 0) (h2 : cmpVal vb vc ≤ 0) : cmpVal va vc ≤ 0 := by
  cases va with
  | n v => simp [isStrB] at ha
  | s x =>
      cases vb with
      | n v => simp [isStrB] at hb
      | s y =>
          cases vc with
          | n v => simp [isStrB] at hc
          | s z =>
              have e1 : strCmp x y ≤ 0 := h1
              have e2 : strCmp y z ≤ 0 := h2
              show strCmp x z ≤ 0
              rw [strCmp_le_zero] at e1 e2 ⊢
              exact le_trans e1 e2

theorem cmpVal_zero_num (va vb : SVal) (ha : isNumB va = true)
    (hb : isNumB vb = true) (h : cmpVal va vb = 0) : va = vb := by
  cases va with
  | s v => simp [isNumB] at ha
  | n x =>
      cases vb with
      | s v => simp [isNumB] at hb
      | n y =>
          have e : (x - y : Int) = 0 := h
          congr 1
          omega

theorem cmpVal_zero_str (va vb : SVal) (ha : isStrB va = true)
    (hb : isStrB vb = true) (h : cmpVal va vb = 0) : va = vb := by
  cases va with
  | n v => simp [isStrB] at ha
  | s x =>
      cases vb with
      | n v => simp [isStrB] at hb
      | s y =>
          have e : strCmp x y = 0 := h
          rw [strCmp_eq_zero x y e]

theorem sortRows_asc_sorted (col : Nat) (KP : SVal → Prop)
    (htrans : ∀ va vb vc, KP va → KP vb → KP vc →
      cmpVal va vb ≤ 0 → cmpVal vb vc ≤ 0 → cmpVal va vc ≤ 0)
    (rows : List (List CellData))
    (hkp : ∀ r ∈ rows, ∀ v, sortKey col r = some v → KP v) :
    List.Pairwise (fun a b =>
      (sortKey col a = none → sortKey col b = none) ∧
      (∀ va vb, sortKey col a = some va → sortKey col b = some vb →
        cmpVal va vb ≤ 0))
      (sortRows (cmpRow col Dir.asc) rows) := by
  refine sortRows_pairwise (fun r => ∀ v, sortKey col r = some v → KP v)
    _ _ ?_ ?_ ?_ rows hkp
  · intro x y hPx hPy hn
    constructor
    · intro hyn
      cases hx : sortKey col x with
      | none => rfl
      | some v =>
          exfalso
          apply hn
          have hc : cmpRow col Dir.asc x y = -1 * dirFactor Dir.asc := by
            unfold cmpRow
            rw [hx, hyn]
          rw [hc]
          decide
    · intro va vb hya hxb
      have hc : cmpRow col Dir.asc x y = dirFactor Dir.asc * cmpVal vb va := by
        unfold cmpRow
        rw [hxb, hya]
      rw [hc] at hn
      simp only [dirFactor, one_mul] at hn
      have hanti := cmpVal_antisymm vb va
      omega
  · intro x y hPx hPy hlt
    constructor
    · intro hxn
      exfalso
      have hc : cmpRow col Dir.asc x y = 1 * dirFactor Dir.asc := by
        unfold cmpRow
        rw [hxn]
      rw [hc] at hlt
      simp [dirFactor] at hlt
    · intro va vb hxa hyb
      have hc : cmpRow col Dir.asc x y = dirFactor Dir.asc * cmpVal va vb := by
        unfold cmpRow
        rw [hxa, hyb]
      rw [hc] at hlt
      simp only [dirFactor, one_mul] at hlt
      omega
  · intro x y z hPx hPy hPz hlt hR
    constructor
    · intro hxn
      exfalso
      have hc : cmpRow col Dir.asc x y = 1 * dirFactor Dir.asc := by
        unfold cmpRow
        rw [hxn]
      rw [hc] at hlt
      simp [dirFactor] at hlt
    · intro va vc hxa hzc
      cases hy : sortKey col y with
      | none =>
          have hzn := hR.1 hy
          rw [hzc] at hzn
          exact absurd hzn (by simp)
      | some vb =>
          have h1 : cmpVal va vb < 0 := by
            have hc : cmpRow col Dir.asc x y = dirFactor Dir.asc * cmpVal va vb := by
              unfold cmpRow
              rw [hxa, hy]
            rw [hc] at hlt
            simp only [dirFactor, one_mul] at hlt
            exact hlt
          exact htrans va vb vc (hPx va hxa) (hPy vb hy) (hPz vc hzc)
            (le_of_lt h1) (hR.2 vb vc hy hzc)

theorem asc_then_desc_rev (col : Nat) (KP : SVal → Prop)
    (htrans : ∀ va vb vc, KP va → KP vb → KP vc →
      cmpVal va vb ≤ 0 → cmpVal vb vc ≤ 0 → cmpVal va vc ≤ 0)
    (hzero : ∀ va vb, KP va → KP vb → cmpVal va vb = 0 → va = vb)
    (rows : List (List CellData))
    (hkp : ∀ r ∈ rows, ∀ v, sortKey col r = some v → KP v)
    (hdist : List.Pairwise (fun a b => ∀ va vb, sortKey col a = some va →
      sortKey col b = some vb → va ≠ vb) rows) :
    sortRows (cmpRow col Dir.desc) (sortRows (cmpRow col Dir.asc) rows) =
      (sortRows (cmpRow col Dir.asc) rows).reverse := by
  apply sortRows_rev
  have hperm := sortRows_perm (cmpRow col Dir.asc) rows
  have hkpr : ∀ a ∈ sortRows (cmpRow col Dir.asc) rows,
      ∀ v, sortKey col a = some v → KP v :=
    fun a ha => hkp a (hperm.mem_iff.mp ha)
  have h3 := sortRows_asc_sorted col KP htrans rows hkp
  have hsymm : Symmetric (fun (a b : List CellData) => ∀ va vb,
      sortKey col a = some va → sortKey col b = some vb → va ≠ vb) := by
    intro a b h v1 v2 h1 h2
    exact (h v2 v1 h2 h1).symm
  have hdistr := (hperm.pairwise_iff (fun hxy => hsymm hxy)).mpr hdist
  refine (h3.and hdistr).imp_of_mem ?_
  intro a b ha hb hab
  obtain ⟨⟨hR1, hR2⟩, hd⟩ := hab
  show cmpRow col Dir.desc b a < 0
  cases hkb : sortKey col b with
  | none =>
      have hc : cmpRow col Dir.desc b a = 1 * dirFactor Dir.desc := by
        unfold cmpRow
        rw [hkb]
      rw [hc]
      decide
  | some vb =>
      cases hka : sortKey col a with
      | none =>
          have hzn := hR1 hka
          rw [hkb] at hzn
          exact absurd hzn (by simp)
      | some va =>
          have hc : cmpRow col Dir.desc b a = dirFactor Dir.desc * cmpVal vb va := by
            unfold cmpRow
            rw [hkb, hka]
          rw [hc]
          have hle := hR2 va vb hka hkb
          have hne := hd va vb hka hkb
          have hanti := cmpVal_antisymm va vb
          have hstrict : cmpVal va vb ≠ 0 := fun h0 =>
            hne (hzero va vb (hkpr a ha va hka) (hkpr b hb vb hkb) h0)
          simp only [dirFactor]
          omega

/-- C4 amended.  In an ascending sort absent-valued rows sort last; in a
descending sort the direction factor multiplies the absent sentinel too, so
absent-valued rows sort FIRST; and when the column's present values are
homogeneous in type and pairwise distinct, a descending sort of the ascending
result yields exactly the reversed data rows (with the absents therefore at
the front, not the back). -/
theorem sortData_order (sheet : SheetData) (col : Nat) :
    ((sortData sheet col Dir.asc).data.drop 1).Pairwise
        (fun a b => sortKey col a = none → sortKey col b = none) ∧
    ((sortData sheet col Dir.desc).data.drop 1).Pairwise
        (fun a b => sortKey col b = none → sortKey col a = none) ∧
    (((∀ v ∈ (sheet.data.drop 1).filterMap (sortKey col), isNumB v = true) ∨
      (∀ v ∈ (sheet.data.drop 1).filterMap (sortKey col), isStrB v = true)) →
     (((sheet.data.drop 1).filterMap (sortKey col)).Pairwise (fun a b => a ≠ b)) →
     (sortData (sortData sheet col Dir.asc) col Dir.desc).data =
       (sortData sheet col Dir.asc).data.take 1 ++
         ((sortData sheet col Dir.asc).data.drop 1).reverse) := by
  cases hd : sheet.data with
  | nil =>
      have h1 : sortData sheet col Dir.asc = sheet := by
        unfold sortData
        rw [hd]
      have h2 : sortData sheet col Dir.desc = sheet := by
        unfold sortData
        rw [hd]
      refine ⟨?_, ?_, ?_⟩
      · rw [h1, hd]
        simp
      · rw [h2, hd]
        simp
      · intro _ _
        rw [h1, h2, hd]
        simp
  | cons header rows =>
      have e1 : sortData sheet col Dir.asc =
          ⟨sheet.name, header :: sortRows (cmpRow col Dir.asc) rows⟩ := by
        unfold sortData
        rw [hd]
      refine ⟨?_, ?_, ?_⟩
      · rw [e1]
        exact sortRows_absent_last col rows
      · have e2 : sortData sheet col Dir.desc =
            ⟨sheet.name, header :: sortRows (cmpRow col Dir.desc) rows⟩ := by
          unfold sortData
          rw [hd]
        rw [e2]
        exact sortRows_absent_first col rows
      · intro hhomog hdist
        rw [e1]
        have hdrop : List.drop 1 (header :: rows) = rows := rfl
        rw [hdrop] at hhomog hdist
        have hdist2 : List.Pairwise (fun a b => ∀ va vb,
            sortKey col a = some va → sortKey col b = some vb → va ≠ vb) rows := by
          have h := List.pairwise_filterMap.mp hdist
          refine h.imp ?_
          intro a b hab va vb hka hkb
          exact hab va (by simp [Option.mem_def, hka]) vb (by simp [Option.mem_def, hkb])
        have hkpmem : ∀ r ∈ rows, ∀ v, sortKey col r = some v →
            v ∈ rows.filterMap (sortKey col) := by
          intro r hr v hv
          exact List.mem_filterMap.mpr ⟨r, hr, hv⟩
        have hrev : sortRows (cmpRow col Dir.desc)
            (sortRows (cmpRow col Dir.asc) rows) =
            (sortRows (cmpRow col Dir.asc) rows).reverse := by
          rcases hhomog with hnum | hstr
          · exact asc_then_desc_rev col (fun v => isNumB v = true)
              cmpVal_trans_num cmpVal_zero_num rows
              (fun r hr v hv => hnum v (hkpmem r hr v hv)) hdist2
          · exact asc_then_desc_rev col (fun v => isStrB v = true)
              cmpVal_trans_str cmpVal_zero_str rows
              (fun r hr v hv => hstr v (hkpmem r hr v hv)) hdist2
        show (⟨sheet.name, header :: sortRows (cmpRow col Dir.desc)
            (sortRows (cmpRow col Dir.asc) rows)⟩ : SheetData).data = _
        rw [hrev]
        simp

theorem sortData_order_witness :
    ((sortData ⟨"s", [[⟨"A1", .str "h", none⟩], [⟨"A2", .num 2, none⟩],
        [⟨"A3", .null, none⟩], [⟨"A4", .num 1, none⟩]]⟩ 0 Dir.asc).data =
      [[⟨"A1", .str "h", none⟩], [⟨"A4", .num 1, none⟩], [⟨"A2", .num 2, none⟩],
        [⟨"A3", .null, none⟩]]) ∧
    ((sortData (sortData ⟨"s", [[⟨"A1", .str "h", none⟩], [⟨"A2", .num 2, none⟩],
        [⟨"A3", .null, none⟩], [⟨"A4", .num 1, none⟩]]⟩ 0 Dir.asc) 0 Dir.desc).data =
      [[⟨"A1", .str "h", none⟩], [⟨"A3", .null, none⟩], [⟨"A2", .num 2, none⟩],
        [⟨"A4", .num 1, none⟩]]) := by
  have h := sortData_order ⟨"s", [[⟨"A1", .str "h", none⟩], [⟨"A2", .num 2, none⟩],
      [⟨"A3", .null, none⟩], [⟨"A4", .num 1, none⟩]]⟩ 0
  have h3 := h.2.2 (Or.inl (by decide)) (by decide)
  constructor
  · decide
  · rw [h3]
    decide

/-! ## ContentCache fingerprint: embedding of generateCacheKey
(src/services/cacheService.ts)

JSON.stringify with the key-sorting replacer is embedded as a canonical
serializer over a raw representation that keeps object key order (association
lists), since the claim under verification is about reordering those keys.
String escaping covers the quote, the backslash and the common control
characters; SHA-256 itself is modelled as an injective digest function, so
digest (in)equality tracks (in)equality of the canonical serialization. -/

def escChar (c : Char) : List Char :=
  if c = '"' then ['\\', '"']
  else if c = '\\' then ['\\', '\\']
  else if c = '\n' then ['\\', 'n']
  else if c = '\t' then ['\\', 't']
  else if c = '\r' then ['\\', 'r']
  else [c]

def escape : List Char → List Char
  | [] => []
  | c :: cs => escChar c ++ escape cs

def quoteChars (s : String) : List Char :=
  '"' :: escape s.data ++ ['"']

/-- Whether the character is one the serializer escapes. -/
def escSet (c : Char) : Bool :=
  c = '"' || c = '\\' || c = '\n' || c = '\t' || c = '\r'

theorem escChar_of_not_escSet (c : Char) (h : escSet c = false) : escChar c = [c] := by
  unfold escSet at h
  unfold escChar
  simp only [Bool.or_eq_false_iff, decide_eq_false_iff_not] at h
  rw [if_neg h.1.1.1.1, if_neg h.1.1.1.2, if_neg h.1.1.2, if_neg h.1.2, if_neg h.2]

theorem escChar_head_not_escSet (c : Char) (h : escSet c = false) :
    escChar c = [c] ∧ c ≠ '\\' := by
  refine ⟨escChar_of_not_escSet c h, ?_⟩
  unfold escSet at h
  simp only [Bool.or_eq_false_iff, decide_eq_false_iff_not] at h
  exact h.1.1.1.2

theorem escChar_of_escSet (c : Char) (h : escSet c = true) :
    (c = '"' ∧ escChar c = ['\\', '"']) ∨
    (c = '\\' ∧ escChar c = ['\\', '\\']) ∨
    (c = '\n' ∧ escChar c = ['\\', 'n']) ∨
    (c = '\t' ∧ escChar c = ['\\', 't']) ∨
    (c = '\r' ∧ escChar c = ['\\', 'r']) := by
  unfold escSet at h
  simp only [Bool.or_eq_true, decide_eq_true_eq] at h
  rcases h with ((((h | h) | h) | h) | h) <;> subst h
  · exact Or.inl ⟨rfl, rfl⟩
  · exact Or.inr (Or.inl ⟨rfl, rfl⟩)
  · exact Or.inr (Or.inr (Or.inl ⟨rfl, by rfl⟩))
  · exact Or.inr (Or.inr (Or.inr (Or.inl ⟨rfl, by rfl⟩)))
  · exact Or.inr (Or.inr (Or.inr (Or.inr ⟨rfl, by rfl⟩)))

theorem escape_inj : ∀ s t : List Char, escape s = escape t → s = t := by
  intro s
  induction s with
  | nil =>
      intro t h
      cases t with
      | nil => rfl
      | cons b bs =>
          exfalso
          have hb : escape (b :: bs) = escChar b ++ escape bs := rfl
          rw [hb] at h
          cases hc : escSet b with
          | false =>
              rw [(escChar_head_not_escSet b hc).1] at h
              simp [escape] at h
          | true =>
              rcases escChar_of_escSet b hc with ⟨_, he⟩ | ⟨_, he⟩ | ⟨_, he⟩ |
                ⟨_, he⟩ | ⟨_, he⟩ <;> rw [he] at h <;> simp [escape] at h
  | cons a as ih =>
      intro t h
      cases t with
      | nil =>
          exfalso
          have ha : escape (a :: as) = escChar a ++ escape as := rfl
          rw [ha] at h
          cases hc : escSet a with
          | false =>
              rw [(escChar_head_not_escSet a hc).1] at h
              simp [escape] at h
          | true =>
              rcases escChar_of_escSet a hc with ⟨_, he⟩ | ⟨_, he⟩ | ⟨_, he⟩ |
                ⟨_, he⟩ | ⟨_, he⟩ <;> rw [he] at h <;> simp [escape] at h
      | cons b bs =>
          have ha : escape (a :: as) = escChar a ++ escape as := rfl
          have hb : escape (b :: bs) = escChar b ++ escape bs := rfl
          rw [ha, hb] at h
          cases hca : escSet a with
          | false =>
              obtain ⟨hea, hane⟩ := escChar_head_not_escSet a hca
              cases hcb : escSet b with
              | false =>
                  obtain ⟨heb, _⟩ := escChar_head_not_escSet b hcb
                  rw [hea, heb] at h
                  simp only [List.cons_append, List.nil_append,
                    List.cons.injEq] at h
                  rw [h.1, ih bs h.2]
              | true =>
                  exfalso
                  rw [hea] at h
                  rcases escChar_of_escSet b hcb with ⟨_, he⟩ | ⟨_, he⟩ |
                    ⟨_, he⟩ | ⟨_, he⟩ | ⟨_, he⟩ <;> rw [he] at h <;>
                    · simp only [List.cons_append, List.nil_append,
                        List.cons.injEq] at h
                      exact hane h.1
          | true =>
              cases hcb : escSet b with
              | false =>
                  exfalso
                  obtain ⟨heb, hbne⟩ := escChar_head_not_escSet b hcb
                  rw [heb] at h
                  rcases escChar_of_escSet a hca with ⟨_, he⟩ | ⟨_, he⟩ |
                    ⟨_, he⟩ | ⟨_, he⟩ | ⟨_, he⟩ <;> rw [he] at h <;>
                    · simp only [List.cons_append, List.nil_append,
                        List.cons.injEq] at h
                      exact hbne h.1.symm
              | true =>
                  rcases escChar_of_escSet a hca with ⟨ha2, hea⟩ | ⟨ha2, hea⟩ |
                    ⟨ha2, hea⟩ | ⟨ha2, hea⟩ | ⟨ha2, hea⟩ <;>
                  rcases escChar_of_escSet b hcb with ⟨hb2, heb⟩ | ⟨hb2, heb⟩ |
                    ⟨hb2, heb⟩ | ⟨hb2, heb⟩ | ⟨hb2, heb⟩ <;>
                  subst ha2 <;> subst hb2 <;> simp only [hea, heb] at h <;>
                    simp at h <;> rw [ih bs h]

theorem quoteChars_inj (s t : String) (h : quoteChars s = quoteChars t) : s = t := by
  unfold quoteChars at h
  injection h with h1 h2
  have h3 : escape s.data = escape t.data := List.append_cancel_right h2
  have h4 : s.data = t.data := escape_inj _ _ h3
  cases s
  cases t
  simp only [] at h4
  exact congrArg String.mk h4

/-- The JSON scalar values a cell record can hold. -/
inductive Scalar where
  | sNull
  | sBool (b : Bool)
  | sInt (n : Int)
  | sStr (s : String)
deriving DecidableEq, Repr

def serScalar : Scalar → List Char
  | .sNull => ['n', 'u', 'l', 'l']
  | .sBool true => ['t', 'r', 'u', 'e']
  | .sBool false => ['f', 'a', 'l', 's', 'e']
  | .sInt n => intChars n
  | .sStr s => quoteChars s

/-- Discriminates the first character of a scalar serialization. -/
def headTag (c : Char) : Nat :=
  if c = 'n' then 0 else if c = 't' then 1 else if c = 'f' then 2
  else if c = '"' then 3 else 4

def scalTag : Scalar → Nat
  | .sNull => 0
  | .sBool true => 1
  | .sBool false => 2
  | .sStr _ => 3
  | .sInt _ => 4

theorem serScalar_cons : ∀ v : Scalar, ∃ c r, serScalar v = c :: r ∧
    headTag c = scalTag v := by
  intro v
  cases v with
  | sNull => exact ⟨'n', _, rfl, by decide⟩
  | sBool bb =>
      cases bb with
      | false => exact ⟨'f', _, rfl, by decide⟩
      | true => exact ⟨'t', _, rfl, by decide⟩
  | sStr s => exact ⟨'"', escape s.data ++ ['"'], rfl, by rfl⟩
  | sInt n =>
      show ∃ c r, intChars n = c :: r ∧ headTag c = 4
      unfold intChars
      split
      · exact ⟨'-', _, rfl, by decide⟩
      · obtain ⟨c, r, hcr⟩ := List.exists_cons_of_ne_nil (natChars_ne_nil n.toNat)
        refine ⟨c, r, hcr, ?_⟩
        have hc : c ∈ natChars n.toNat := by
          rw [hcr]
          simp
        obtain ⟨d, hd, rfl⟩ := natChars_digits _ c hc
        interval_cases d <;> decide

theorem serScalar_inj (a b : Scalar) (h : serScalar a = serScalar b) : a = b := by
  have h0 := h
  obtain ⟨ca, ra, ha, hta⟩ := serScalar_cons a
  obtain ⟨cb, rb, hb, htb⟩ := serScalar_cons b
  rw [ha, hb] at h
  injection h with h1 h2
  have htag : scalTag a = scalTag b := by rw [← hta, ← htb, h1]
  cases a with
  | sNull =>
      cases b with
      | sNull => rfl
      | sBool bb => cases bb <;> simp [scalTag] at htag
      | sInt n => simp [scalTag] at htag
      | sStr s => simp [scalTag] at htag
  | sBool ba =>
      cases b with
      | sNull => cases ba <;> simp [scalTag] at htag
      | sBool bb =>
          cases ba <;> cases bb <;> first | rfl | simp [scalTag] at htag
      | sInt n => cases ba <;> simp [scalTag] at htag
      | sStr s => cases ba <;> simp [scalTag] at htag
  | sInt na =>
      cases b with
      | sNull => simp [scalTag] at htag
      | sBool bb => cases bb <;> simp [scalTag] at htag
      | sInt nb => rw [intChars_inj na nb h0]
      | sStr s => simp [scalTag] at htag
  | sStr sa =>
      cases b with
      | sNull => simp [scalTag] at htag
      | sBool bb => cases bb <;> simp [scalTag] at htag
      | sInt n => simp [scalTag] at htag
      | sStr sb => rw [quoteChars_inj sa sb h0]

/-- A cell record as JSON.stringify sees it: fields in insertion order. -/
abbrev RawCell : Type := List (String × Scalar)

/-- A sheet field value: a scalar (the name) or the data grid. -/
inductive SheetFieldVal where
  | fScalar (s : Scalar)
  | fData (d : List (List RawCell))
deriving DecidableEq, Repr

/-- A sheet record as JSON.stringify sees it: fields in insertion order. -/
abbrev RawSheet : Type := List (String × SheetFieldVal)

/-- Comma-join of serialized fragments (JSON.stringify list separator). -/
def joinComma : List (List Char) → List Char
  | [] => []
  | [x] => x
  | x :: y :: r => x ++ ',' :: joinComma (y :: r)

/-- Object.keys(value).sort() of the replacer: entries reordered by key. -/
def sortByKey {α : Type} (l : List (String × α)) : List (String × α) :=
  List.insertionSort (fun a b => a.1 ≤ b.1) l

/-- Serialize an object: sort the keys, then serialize each field. -/
def serObj {α : Type} (ser : α → List Char) (l : List (String × α)) : List Char :=
  '\x7b' :: joinComma ((sortByKey l).map
    (fun p => quoteChars p.1 ++ ':' :: ser p.2)) ++ ['\x7d']

/-- Serialize an array: element order is preserved. -/
def serArr {α : Type} (ser : α → List Char) (l : List α) : List Char :=
  '[' :: joinComma (l.map ser) ++ [']']

def serCell (c : RawCell) : List Char := serObj serScalar c

def serRow (r : List RawCell) : List Char := serArr serCell r

def serData (d : List (List RawCell)) : List Char := serArr serRow d

def serFieldVal : SheetFieldVal → List Char
  | .fScalar s => serScalar s
  | .fData d => serData d

def serSheet (s : RawSheet) : List Char := serObj serFieldVal s

def serTables (l : List RawSheet) : List Char := serArr serSheet l

/-- SHA-256 is modelled as an injective digest function: collision freedom of
the real hash is assumed, so digest equality tracks equality of the
canonically serialized input, which is what the claims are about. -/
def sha256 (msg : String) : String := msg

def generateCacheKey (data : List RawSheet) : String :=
  sha256 (String.mk (serTables data))

theorem sortByKey_sorted {α : Type} (l : List (String × α)) :
    List.Sorted (fun a b => a.1 ≤ b.1) (sortByKey l) := by
  haveI : IsTotal (String × α) (fun a b => a.1 ≤ b.1) :=
    ⟨fun a b => le_total a.1 b.1⟩
  haveI : IsTrans (String × α) (fun a b => a.1 ≤ b.1) :=
    ⟨fun a b c h1 h2 => le_trans h1 h2⟩
  exact List.sorted_insertionSort _ l

theorem sortByKey_perm {α : Type} (l : List (String × α)) :
    List.Perm (sortByKey l) l :=
  List.perm_insertionSort _ l

theorem sorted_strict_of_nodup {α : Type} (l : List (String × α))
    (hs : List.Sorted (fun a b => a.1 ≤ b.1) l)
    (hn : (l.map Prod.fst).Nodup) :
    List.Sorted (fun a b => a.1 < b.1) l := by
  have hne : List.Pairwise (fun p q : String × α => p.1 ≠ q.1) l := by
    rw [List.Nodup, List.pairwise_map] at hn
    exact hn
  exact (hs.and hne).imp (fun h => lt_of_le_of_ne h.1 h.2)

theorem sortByKey_perm_eq {α : Type} [DecidableEq α]
    (l1 l2 : List (String × α)) (hperm : List.Perm l1 l2)
    (hn : (l1.map Prod.fst).Nodup) : sortByKey l1 = sortByKey l2 := by
  haveI : IsAntisymm (String × α) (fun a b => a.1 < b.1) :=
    ⟨fun a b h1 h2 => absurd h2 (lt_asymm h1)⟩
  have hp : List.Perm (sortByKey l1) (sortByKey l2) :=
    (sortByKey_perm l1).trans (hperm.trans (sortByKey_perm l2).symm)
  have hn1 : ((sortByKey l1).map Prod.fst).Nodup :=
    (((sortByKey_perm l1).map Prod.fst).nodup_iff).mpr hn
  have hn2 : ((sortByKey l2).map Prod.fst).Nodup :=
    ((hp.map Prod.fst).nodup_iff).mp hn1
  exact List.eq_of_perm_of_sorted hp
    (sorted_strict_of_nodup _ (sortByKey_sorted l1) hn1)
    (sorted_strict_of_nodup _ (sortByKey_sorted l2) hn2)

theorem orderedInsert_rel {α β : Type} (R : (String × α) → (String × β) → Prop)
    (hkey : ∀ p q, R p q → p.1 = q.1) :
    ∀ (a : String × α) (b : String × β) (l1 : List (String × α))
      (l2 : List (String × β)), R a b → List.Forall₂ R l1 l2 →
      List.Forall₂ R (List.orderedInsert (fun x y => x.1 ≤ y.1) a l1)
        (List.orderedInsert (fun x y => x.1 ≤ y.1) b l2) := by
  intro a b l1 l2 hab h
  induction h with
  | nil => exact List.Forall₂.cons hab List.Forall₂.nil
  | cons hxy hrest ih =>
      rename_i x y t1 t2
      show List.Forall₂ R (List.orderedInsert _ a (x :: t1))
        (List.orderedInsert _ b (y :: t2))
      unfold List.orderedInsert
      by_cases hc : a.1 ≤ x.1
      · rw [if_pos hc, if_pos (show b.1 ≤ y.1 by
          rw [← hkey a b hab, ← hkey x y hxy]; exact hc)]
        exact List.Forall₂.cons hab (List.Forall₂.cons hxy hrest)
      · rw [if_neg hc, if_neg (show ¬ b.1 ≤ y.1 by
          rw [← hkey a b hab, ← hkey x y hxy]; exact hc)]
        exact List.Forall₂.cons hxy ih

theorem sortByKey_rel {α β : Type} (R : (String × α) → (String × β) → Prop)
    (hkey : ∀ p q, R p q → p.1 = q.1) :
    ∀ (l1 : List (String × α)) (l2 : List (String × β)), List.Forall₂ R l1 l2 →
      List.Forall₂ R (sortByKey l1) (sortByKey l2) := by
  intro l1 l2 h
  induction h with
  | nil => exact List.Forall₂.nil
  | cons hxy hrest ih =>
      rename_i x y t1 t2
      show List.Forall₂ R (List.orderedInsert _ x (sortByKey t1))
        (List.orderedInsert _ y (sortByKey t2))
      exact orderedInsert_rel R hkey x y _ _ hxy ih

theorem forall₂_map_eq {α β γ : Type} (f : α → γ) (g : β → γ) :
    ∀ (l1 : List α) (l2 : List β),
      List.Forall₂ (fun p q => f p = g q) l1 l2 → l1.map f = l2.map g := by
  intro l1 l2 h
  induction h with
  | nil => rfl
  | cons hxy hrest ih =>
      simp only [List.map_cons, ih, hxy]

/-- Two cell records hold the same fields up to key order. -/
def cellEquiv (c1 c2 : RawCell) : Prop := List.Perm c1 c2

/-- Field values equal up to key reordering inside cell records. -/
def fieldValEquiv : SheetFieldVal → SheetFieldVal → Prop
  | .fScalar a, .fScalar b => a = b
  | .fData d1, .fData d2 => List.Forall₂ (List.Forall₂ cellEquiv) d1 d2
  | _, _ => False

/-- Two sheet records hold the same fields up to key order at every level. -/
def sheetEquiv (s1 s2 : RawSheet) : Prop :=
  ∃ l : RawSheet,
    List.Forall₂ (fun p q => p.1 = q.1 ∧ fieldValEquiv p.2 q.2) s1 l ∧
    List.Perm l s2

def tablesEquiv (d1 d2 : List RawSheet) : Prop := List.Forall₂ sheetEquiv d1 d2

/-- Objects coming from JavaScript never repeat a key. -/
def cellWF (c : RawCell) : Prop := (c.map Prod.fst).Nodup

def fieldValWF : SheetFieldVal → Prop
  | .fScalar _ => True
  | .fData d => ∀ row ∈ d, ∀ cell ∈ row, cellWF cell

def sheetWF (s : RawSheet) : Prop :=
  (s.map Prod.fst).Nodup ∧ ∀ p ∈ s, fieldValWF p.2

def tablesWF (d : List RawSheet) : Prop := ∀ s ∈ d, sheetWF s

instance : DecidablePred cellWF := fun c => by
  unfold cellWF
  infer_instance

instance : DecidablePred fieldValWF := fun v => by
  cases v with
  | fScalar s => exact isTrue trivial
  | fData d =>
      unfold fieldValWF
      infer_instance

instance : DecidablePred sheetWF := fun s => by
  unfold sheetWF
  infer_instance

instance : DecidablePred tablesWF := fun d => by
  unfold tablesWF
  infer_instance

theorem map_eq_of_forall₂ {α β γ : Type} (f : α → γ) (g : β → γ)
    (P : α → Prop) (R : α → β → Prop)
    (h : ∀ a b, P a → R a b → f a = g b) :
    ∀ (l1 : List α) (l2 : List β), (∀ a ∈ l1, P a) → List.Forall₂ R l1 l2 →
      l1.map f = l2.map g := by
  intro l1
  induction l1 with
  | nil =>
      intro l2 _ hR
      cases hR
      rfl
  | cons x t1 ihl =>
      intro l2 hP hR
      cases hR with
      | cons hxy hrest =>
          rename_i y t2
          simp only [List.map_cons]
          rw [h x y (hP x (by simp)) hxy,
            ihl t2 (fun a ha => hP a (by simp [ha])) hrest]

theorem forall₂_imp_mem {α β : Type} (P : α → Prop) (R R2 : α → β → Prop)
    (h : ∀ a b, P a → R a b → R2 a b) :
    ∀ (l1 : List α) (l2 : List β), (∀ a ∈ l1, P a) → List.Forall₂ R l1 l2 →
      List.Forall₂ R2 l1 l2 := by
  intro l1
  induction l1 with
  | nil =>
      intro l2 _ hR
      cases hR
      exact List.Forall₂.nil
  | cons x t1 ihl =>
      intro l2 hP hR
      cases hR with
      | cons hxy hrest =>
          exact List.Forall₂.cons (h x _ (hP x (by simp)) hxy)
            (ihl _ (fun a ha => hP a (by simp [ha])) hrest)

theorem serCell_equiv (c1 c2 : RawCell) (hwf : cellWF c1) (he : cellEquiv c1 c2) :
    serCell c1 = serCell c2 := by
  unfold serCell serObj
  rw [sortByKey_perm_eq c1 c2 he hwf]

theorem serRow_equiv (r1 r2 : List RawCell) (hwf : ∀ c ∈ r1, cellWF c)
    (he : List.Forall₂ cellEquiv r1 r2) : serRow r1 = serRow r2 := by
  unfold serRow serArr
  rw [map_eq_of_forall₂ serCell serCell cellWF cellEquiv serCell_equiv r1 r2 hwf he]

theorem serData_equiv (d1 d2 : List (List RawCell))
    (hwf : ∀ row ∈ d1, ∀ c ∈ row, cellWF c)
    (he : List.Forall₂ (List.Forall₂ cellEquiv) d1 d2) : serData d1 = serData d2 := by
  unfold serData serArr
  rw [map_eq_of_forall₂ serRow serRow (fun r => ∀ c ∈ r, cellWF c)
    (List.Forall₂ cellEquiv) serRow_equiv d1 d2 hwf he]

theorem serFieldVal_equiv (v1 v2 : SheetFieldVal) (hwf : fieldValWF v1)
    (he : fieldValEquiv v1 v2) : serFieldVal v1 = serFieldVal v2 := by
  cases v1 with
  | fScalar a =>
      cases v2 with
      | fScalar b =>
          have hab : a = b := he
          rw [hab]
      | fData d => exact absurd he (by simp [fieldValEquiv])
  | fData d1 =>
      cases v2 with
      | fScalar b => exact absurd he (by simp [fieldValEquiv])
      | fData d2 =>
          have hd : List.Forall₂ (List.Forall₂ cellEquiv) d1 d2 := he
          have hw : ∀ row ∈ d1, ∀ c ∈ row, cellWF c := hwf
          show serData d1 = serData d2
          exact serData_equiv d1 d2 hw hd

theorem serSheet_equiv (s1 s2 : RawSheet) (hwf : sheetWF s1)
    (he : sheetEquiv s1 s2) : serSheet s1 = serSheet s2 := by
  obtain ⟨l, hf, hp⟩ := he
  obtain ⟨hnodup, hfields⟩ := hwf
  have step1 : serSheet s1 = serSheet l := by
    unfold serSheet serObj
    have hser : List.Forall₂
        (fun (p q : String × SheetFieldVal) => p.1 = q.1 ∧
          serFieldVal p.2 = serFieldVal q.2) s1 l := by
      refine forall₂_imp_mem (fun p => fieldValWF p.2) _ _ ?_ s1 l hfields hf
      intro p q hP hR
      exact ⟨hR.1, serFieldVal_equiv p.2 q.2 hP hR.2⟩
    have hsorted := sortByKey_rel _ (fun p q h => h.1) s1 l hser
    have hmap : (sortByKey s1).map (fun p => quoteChars p.1 ++ ':' :: serFieldVal p.2) =
        (sortByKey l).map (fun p => quoteChars p.1 ++ ':' :: serFieldVal p.2) := by
      refine forall₂_map_eq _ _ _ _ (hsorted.imp ?_)
      intro p q h
      rw [h.1, h.2]
    rw [hmap]
  have hkeys : s1.map Prod.fst = l.map Prod.fst := by
    refine forall₂_map_eq Prod.fst Prod.fst s1 l (hf.imp ?_)
    intro p q h
    exact h.1
  have hnl : (l.map Prod.fst).Nodup := by
    rw [← hkeys]
    exact hnodup
  have step2 : serSheet l = serSheet s2 := by
    unfold serSheet serObj
    rw [sortByKey_perm_eq l s2 hp hnl]
  rw [step1, step2]

/-- C5 part 1 engine: equal content up to per-object key order yields the
same canonical serialization. -/
theorem serTables_equiv (d1 d2 : List RawSheet) (hwf : tablesWF d1)
    (he : tablesEquiv d1 d2) : serTables d1 = serTables d2 := by
  unfold serTables serArr
  rw [map_eq_of_forall₂ serSheet serSheet sheetWF sheetEquiv serSheet_equiv
    d1 d2 hwf he]

def updateAt {α : Type} : List α → Nat → (α → α) → List α
  | [], _, _ => []
  | x :: xs, 0, f => f x :: xs
  | x :: xs, i + 1, f => x :: updateAt xs i f

/-- Overwrite the value field of a cell record. -/
def setCellValue (v : Scalar) (c : RawCell) : RawCell :=
  c.map (fun p => if p.1 = "value" then (p.1, v) else p)

/-- Apply a transformation to the rows held by the data field. -/
def updateSheetData (f : List (List RawCell) → List (List RawCell))
    (s : RawSheet) : RawSheet :=
  s.map (fun p => if p.1 = "data" then
    (p.1, match p.2 with
      | .fData rows => .fData (f rows)
      | other => other)
    else p)

/-- Replace the value of cell (si, ri, ci) by v. -/
def updateCellValue (d : List RawSheet) (si ri ci : Nat) (v : Scalar) :
    List RawSheet :=
  updateAt d si (updateSheetData
    (fun rows => updateAt rows ri (fun row => updateAt row ci (setCellValue v))))

theorem updateAt_length {α : Type} :
    ∀ (l : List α) (i : Nat) (f : α → α), (updateAt l i f).length = l.length := by
  intro l
  induction l with
  | nil => intro i f; rfl
  | cons x xs ih =>
      intro i f
      cases i with
      | zero => rfl
      | succ m => simp [updateAt, ih]

theorem joinComma_cons (a : List Char) (rest : List (List Char)) (h : rest ≠ []) :
    joinComma (a :: rest) = a ++ ',' :: joinComma rest := by
  cases rest with
  | nil => exact absurd rfl h
  | cons y r => rfl

theorem joinComma_head_ne (a b : List Char) (M : List (List Char)) (hab : a ≠ b) :
    joinComma (a :: M) ≠ joinComma (b :: M) := by
  cases M with
  | nil => exact hab
  | cons y r =>
      intro h
      rw [joinComma_cons a _ (by simp), joinComma_cons b _ (by simp)] at h
      exact hab (List.append_cancel_right h)

theorem joinComma_tail_ne (a : List Char) (M1 M2 : List (List Char))
    (h1 : M1 ≠ []) (h2 : M2 ≠ []) (hne : joinComma M1 ≠ joinComma M2) :
    joinComma (a :: M1) ≠ joinComma (a :: M2) := by
  intro h
  rw [joinComma_cons a M1 h1, joinComma_cons a M2 h2] at h
  have h3 := List.append_cancel_left h
  injection h3 with _ h4
  exact hne h4

theorem wrap_ne (a b : Char) (J1 J2 : List Char) (h : J1 ≠ J2) :
    a :: J1 ++ [b] ≠ a :: J2 ++ [b] := by
  intro heq
  injection heq with _ h2
  exact h (List.append_cancel_right h2)

theorem joinMap_update_ne {α : Type} (ser : α → List Char) :
    ∀ (l : List α) (i : Nat) (f : α → α) (hi : i < l.length),
      ser (f (l.get ⟨i, hi⟩)) ≠ ser (l.get ⟨i, hi⟩) →
      joinComma ((updateAt l i f).map ser) ≠ joinComma (l.map ser) := by
  intro l
  induction l with
  | nil => intro i f hi; simp at hi
  | cons x xs ih =>
      intro i f hi hne
      cases i with
      | zero =>
          show joinComma (ser (f x) :: xs.map ser) ≠ joinComma (ser x :: xs.map ser)
          exact joinComma_head_ne _ _ _ hne
      | succ m =>
          show joinComma (ser x :: (updateAt xs m f).map ser) ≠
            joinComma (ser x :: xs.map ser)
          have hm : m < xs.length := by simpa using hi
          have hxs : xs ≠ [] := by
            intro hc
            rw [hc] at hm
            simp at hm
          have hM2 : xs.map ser ≠ [] := by
            simpa using hxs
          have hM1 : (updateAt xs m f).map ser ≠ [] := by
            intro hc
            have h0 : ((updateAt xs m f).map ser).length = 0 := by rw [hc]; rfl
            rw [List.length_map, updateAt_length] at h0
            omega
          exact joinComma_tail_ne _ _ _ hM1 hM2 (ih m f hm hne)

theorem serArr_update_ne {α : Type} (ser : α → List Char) (l : List α) (i : Nat)
    (f : α → α) (hi : i < l.length)
    (hne : ser (f (l.get ⟨i, hi⟩)) ≠ ser (l.get ⟨i, hi⟩)) :
    serArr ser (updateAt l i f) ≠ serArr ser l :=
  wrap_ne '[' ']' _ _ (joinMap_update_ne ser l i f hi hne)

theorem forall₂_map_self {α : Type} (f : α → α) (l : List α) :
    List.Forall₂ (fun p q => q = f p) l (l.map f) := by
  induction l with
  | nil => exact List.Forall₂.nil
  | cons x xs ih => exact List.Forall₂.cons rfl ih

theorem forall₂_fix_of_no_key {α : Type} (key : String) (g : α → α) :
    ∀ (t1 t2 : List (String × α)),
      List.Forall₂ (fun p q => q = (if p.1 = key then (p.1, g p.2) else p)) t1 t2 →
      (∀ a ∈ t1, a.1 ≠ key) → t2 = t1 := by
  intro t1 t2 h
  induction h with
  | nil => intro _; rfl
  | cons hxy hrest ih =>
      rename_i x y s1 s2
      intro hk
      have hx : x.1 ≠ key := hk x (List.mem_cons_self x s1)
      rw [if_neg hx] at hxy
      have hs : s2 = s1 := ih (fun a ha => hk a (List.mem_cons_of_mem x ha))
      rw [hxy, hs]

theorem objJoin_update_ne {α : Type} (ser : α → List Char) (key : String)
    (g : α → α) (vOld : α) (hne : ser (g vOld) ≠ ser vOld) :
    ∀ (l1 l2 : List (String × α)),
      List.Forall₂ (fun p q => q = (if p.1 = key then (p.1, g p.2) else p)) l1 l2 →
      (key, vOld) ∈ l1 → (l1.map Prod.fst).Nodup →
      joinComma (l2.map (fun p => quoteChars p.1 ++ ':' :: ser p.2)) ≠
      joinComma (l1.map (fun p => quoteChars p.1 ++ ':' :: ser p.2)) := by
  intro l1 l2 h
  induction h with
  | nil => intro hmem; simp at hmem
  | cons hxy hrest ih =>
      rename_i x y t1 t2
      intro hmem hnodup
      have hnk : x.1 ∉ t1.map Prod.fst := by
        rw [List.map_cons] at hnodup
        exact (List.nodup_cons.mp hnodup).1
      by_cases hk : x.1 = key
      · have hx : x = (key, vOld) := by
          rcases List.mem_cons.mp hmem with h1 | h1
          · exact h1.symm
          · exact absurd (List.mem_map.mpr ⟨(key, vOld), h1, rfl⟩)
              (by rw [hk] at hnk; exact hnk)
        rw [if_pos hk] at hxy
        have hkeys : ∀ a ∈ t1, a.1 ≠ key := by
          intro a ha hak
          rw [hk] at hnk
          exact hnk (List.mem_map.mpr ⟨a, ha, hak⟩)
        have ht : t2 = t1 := forall₂_fix_of_no_key key g t1 t2 hrest hkeys
        rw [ht, List.map_cons, List.map_cons]
        apply joinComma_head_ne
        rw [hxy, hx]
        intro heq
        have h2 := List.append_cancel_left heq
        injection h2 with _ h3
        exact hne h3
      · rw [if_neg hk] at hxy
        have hmem2 : (key, vOld) ∈ t1 := by
          rcases List.mem_cons.mp hmem with h1 | h1
          · exact absurd (congrArg Prod.fst h1.symm) hk
          · exact h1
        have hnodup2 : (t1.map Prod.fst).Nodup := by
          rw [List.map_cons] at hnodup
          exact (List.nodup_cons.mp hnodup).2
        have ht1 : t1 ≠ [] := by
          intro hc
          rw [hc] at hmem2
          simp at hmem2
        have hlen : t1.length = t2.length := hrest.length_eq
        have ht2 : t2 ≠ [] := by
          intro hc
          rw [hc] at hlen
          exact ht1 (List.length_eq_zero.mp hlen)
        rw [hxy, List.map_cons, List.map_cons]
        exact joinComma_tail_ne _ _ _ (by simpa using ht2) (by simpa using ht1)
          (ih hmem2 hnodup2)

theorem serObj_update_key_ne {α : Type} (ser : α → List Char) (key : String)
    (g : α → α) (vOld : α) (l : List (String × α))
    (hmem : (key, vOld) ∈ l) (hnodup : (l.map Prod.fst).Nodup)
    (hne : ser (g vOld) ≠ ser vOld) :
    serObj ser (l.map (fun p => if p.1 = key then (p.1, g p.2) else p)) ≠
    serObj ser l := by
  unfold serObj
  apply wrap_ne
  have hF := forall₂_map_self (fun p : String × α =>
    if p.1 = key then (p.1, g p.2) else p) l
  have hFs := sortByKey_rel
    (fun p q => q = (if p.1 = key then (p.1, g p.2) else p))
    (fun p q hq => by
      rw [hq]
      by_cases hc : p.1 = key
      · rw [if_pos hc]
      · rw [if_neg hc]) l _ hF
  have hmem2 : (key, vOld) ∈ sortByKey l := (sortByKey_perm l).mem_iff.mpr hmem
  have hnodup2 : ((sortByKey l).map Prod.fst).Nodup :=
    (((sortByKey_perm l).map Prod.fst).nodup_iff).mpr hnodup
  exact objJoin_update_ne ser key g vOld hne _ _ hFs hmem2 hnodup2

theorem serCell_set_ne (c : RawCell) (v vOld : Scalar)
    (hmem : ("value", vOld) ∈ c) (hwf : cellWF c) (hne : v ≠ vOld) :
    serCell (setCellValue v c) ≠ serCell c :=
  serObj_update_key_ne serScalar "value" (fun _ => v) vOld c hmem hwf
    (fun h => hne (serScalar_inj _ _ h))

theorem serRow_set_ne (row : List RawCell) (ci : Nat) (hci : ci < row.length)
    (v vOld : Scalar) (hmem : ("value", vOld) ∈ row.get ⟨ci, hci⟩)
    (hwf : cellWF (row.get ⟨ci, hci⟩)) (hne : v ≠ vOld) :
    serRow (updateAt row ci (setCellValue v)) ≠ serRow row :=
  serArr_update_ne serCell row ci (setCellValue v) hci
    (serCell_set_ne _ v vOld hmem hwf hne)

theorem serData_set_ne (rows : List (List RawCell)) (ri ci : Nat)
    (hri : ri < rows.length) (hci : ci < (rows.get ⟨ri, hri⟩).length)
    (v vOld : Scalar)
    (hmem : ("value", vOld) ∈ (rows.get ⟨ri, hri⟩).get ⟨ci, hci⟩)
    (hwf : cellWF ((rows.get ⟨ri, hri⟩).get ⟨ci, hci⟩)) (hne : v ≠ vOld) :
    serData (updateAt rows ri (fun row => updateAt row ci (setCellValue v))) ≠
    serData rows :=
  serArr_update_ne serRow rows ri _ hri
    (serRow_set_ne _ ci hci v vOld hmem hwf hne)

theorem serSheet_set_ne (s : RawSheet) (rows : List (List RawCell))
    (f : List (List RawCell) → List (List RawCell))
    (hmem : ("data", SheetFieldVal.fData rows) ∈ s)
    (hnodup : (s.map Prod.fst).Nodup)
    (hne : serData (f rows) ≠ serData rows) :
    serSheet (updateSheetData f s) ≠ serSheet s :=
  serObj_update_key_ne serFieldVal "data"
    (fun fv => match fv with
      | .fData r => SheetFieldVal.fData (f r)
      | other => other) (SheetFieldVal.fData rows) s hmem hnodup hne

theorem generateCacheKey_ne_of_serTables_ne (d1 d2 : List RawSheet)
    (h : serTables d1 ≠ serTables d2) :
    generateCacheKey d1 ≠ generateCacheKey d2 := by
  intro heq
  exact h (congrArg String.data heq)

/-- Changing the value field of any addressed cell changes the digest. -/
theorem generateCacheKey_value_sensitive
    (d : List RawSheet) (si ri ci : Nat) (v vOld : Scalar)
    (rows : List (List RawCell))
    (hsi : si < d.length)
    (hdata : ("data", SheetFieldVal.fData rows) ∈ d.get ⟨si, hsi⟩)
    (hri : ri < rows.length)
    (hci : ci < (rows.get ⟨ri, hri⟩).length)
    (hval : ("value", vOld) ∈ (rows.get ⟨ri, hri⟩).get ⟨ci, hci⟩)
    (hwf : tablesWF d) (hne : v ≠ vOld) :
    generateCacheKey (updateCellValue d si ri ci v) ≠ generateCacheKey d := by
  apply generateCacheKey_ne_of_serTables_ne
  have hsWF : sheetWF (d.get ⟨si, hsi⟩) := hwf _ (d.get_mem si hsi)
  have hfWF : fieldValWF (SheetFieldVal.fData rows) :=
    hsWF.2 ("data", SheetFieldVal.fData rows) hdata
  have hcWF : cellWF ((rows.get ⟨ri, hri⟩).get ⟨ci, hci⟩) :=
    hfWF _ (rows.get_mem ri hri) _ ((rows.get ⟨ri, hri⟩).get_mem ci hci)
  exact serArr_update_ne serSheet d si _ hsi
    (serSheet_set_ne _ rows _ hdata hsWF.1
      (serData_set_ne rows ri ci hri hci v vOld hval hcWF hne))

def sheetPairA : RawSheet :=
  [("name", SheetFieldVal.fScalar (Scalar.sStr "A")),
   ("data", SheetFieldVal.fData [])]

def sheetPairB : RawSheet :=
  [("name", SheetFieldVal.fScalar (Scalar.sStr "B")),
   ("data", SheetFieldVal.fData [])]

def cellW1 : RawCell := [("address", Scalar.sStr "A1"), ("value", Scalar.sInt 1)]

def cellW2 : RawCell := [("value", Scalar.sInt 1), ("address", Scalar.sStr "A1")]

def rowsW : List (List RawCell) := [[cellW1]]

def sheetW1 : RawSheet :=
  [("name", SheetFieldVal.fScalar (Scalar.sStr "S")),
   ("data", SheetFieldVal.fData rowsW)]

def sheetW2 : RawSheet :=
  [("data", SheetFieldVal.fData [[cellW2]]),
   ("name", SheetFieldVal.fScalar (Scalar.sStr "S"))]

def dW1 : List RawSheet := [sheetW1]

def dW2 : List RawSheet := [sheetW2]

/-- C5: generateCacheKey is invariant under reordering of object keys inside
each record at every nesting level (first conjunct, for key-nodup inputs);
array element order is not canonicalized away — swapping two distinct sheets
in the top-level array changes the digest (second conjunct); and changing the
value field of any addressed cell changes the digest (third conjunct).
SHA-256 is modelled as an injective digest of the canonical serialization. -/
theorem generateCacheKey_canonical :
    (∀ d1 d2 : List RawSheet, tablesWF d1 → tablesEquiv d1 d2 →
      generateCacheKey d1 = generateCacheKey d2) ∧
    (generateCacheKey [sheetPairA, sheetPairB] ≠
      generateCacheKey [sheetPairB, sheetPairA]) ∧
    (∀ (d : List RawSheet) (si ri ci : Nat) (v vOld : Scalar)
      (rows : List (List RawCell)) (hsi : si < d.length),
      ("data", SheetFieldVal.fData rows) ∈ d.get ⟨si, hsi⟩ →
      ∀ (hri : ri < rows.length) (hci : ci < (rows.get ⟨ri, hri⟩).length),
      ("value", vOld) ∈ (rows.get ⟨ri, hri⟩).get ⟨ci, hci⟩ →
      tablesWF d → v ≠ vOld →
      generateCacheKey (updateCellValue d si ri ci v) ≠ generateCacheKey d) := by
  refine ⟨?_, ?_, ?_⟩
  · intro d1 d2 hwf he
    show sha256 (String.mk (serTables d1)) = sha256 (String.mk (serTables d2))
    rw [serTables_equiv d1 d2 hwf he]
  · have hnd : ¬ (("name" : String) ≤ "data") := by
      rw [String.le_iff_toList_le]
      decide
    have hA : sortByKey sheetPairA =
        [("data", SheetFieldVal.fData []),
         ("name", SheetFieldVal.fScalar (Scalar.sStr "A"))] := by
      simp [sortByKey, sheetPairA, List.insertionSort, List.orderedInsert, hnd]
    have hB : sortByKey sheetPairB =
        [("data", SheetFieldVal.fData []),
         ("name", SheetFieldVal.fScalar (Scalar.sStr "B"))] := by
      simp [sortByKey, sheetPairB, List.insertionSort, List.orderedInsert, hnd]
    intro heq
    have h0 : serTables [sheetPairA, sheetPairB] =
        serTables [sheetPairB, sheetPairA] := congrArg String.data heq
    simp only [serTables, serArr, serSheet, serObj, List.map_cons, List.map_nil,
      hA, hB] at h0
    exact absurd h0 (by decide)
  · intro d si ri ci v vOld rows hsi hdata hri hci hval hwf hne
    exact generateCacheKey_value_sensitive d si ri ci v vOld rows hsi hdata
      hri hci hval hwf hne

theorem generateCacheKey_canonical_witness :
    generateCacheKey dW1 = generateCacheKey dW2 ∧
    generateCacheKey (updateCellValue dW1 0 0 0 (Scalar.sInt 2)) ≠
      generateCacheKey dW1 := by
  constructor
  · apply generateCacheKey_canonical.1 dW1 dW2 (by decide)
    refine List.Forall₂.cons ?_ List.Forall₂.nil
    refine ⟨[("name", SheetFieldVal.fScalar (Scalar.sStr "S")),
      ("data", SheetFieldVal.fData [[cellW2]])], ?_, by decide⟩
    refine List.Forall₂.cons ⟨rfl, rfl⟩
      (List.Forall₂.cons ⟨rfl, ?_⟩ List.Forall₂.nil)
    show List.Forall₂ (List.Forall₂ cellEquiv) [[cellW1]] [[cellW2]]
    refine List.Forall₂.cons (List.Forall₂.cons ?_ List.Forall₂.nil)
      List.Forall₂.nil
    show List.Perm cellW1 cellW2
    decide
  · exact generateCacheKey_canonical.2.2 dW1 0 0 0 (Scalar.sInt 2)
      (Scalar.sInt 1) rowsW (by decide) (by decide) (by decide) (by decide)
      (by decide) (by decide) (by decide)
